import Mathlib

/-- Little-endian byte encoding of a natural number into exactly `w` bytes
(the value is implicitly reduced modulo `2 ^ (8 * w)`), matching Rust's
`to_le_bytes` on the bit pattern. -/
def toLEBytes : Nat → Nat → List Nat
  | 0, _ => []
  | w + 1, n => n % 256 :: toLEBytes w (n / 256)

/-- Decode a little-endian byte sequence back into a natural number. -/
def fromLEBytes : List Nat → Nat
  | [] => 0
  | b :: rest => b + 256 * fromLEBytes rest

/-- The minimum value of Rust's `i16`. -/
def i16Min : Int := -(2 ^ 15)

/-- The minimum value of Rust's `i32`. -/
def i32Min : Int := -(2 ^ 31)

/-- The minimum value of Rust's `i64`. -/
def i64Min : Int := -(2 ^ 63)

/-- The minimum value of Rust's `i128`. -/
def i128Min : Int := -(2 ^ 127)

/-- `impl OffsetToBytes for i16`: `self.wrapping_sub(i16::MIN).to_le_bytes()`.
The wrapped difference `v - i16::MIN` reduced modulo `2 ^ 16` is the bit
pattern of the Rust result, which is then serialized little-endian. -/
def i16_offset_to_bytes (v : Int) : List Nat :=
  toLEBytes 2 (((v - i16Min) % 2 ^ 16).toNat)

/-- `impl OffsetToBytes for i32`: `self.wrapping_sub(i32::MIN).to_le_bytes()`. -/
def i32_offset_to_bytes (v : Int) : List Nat :=
  toLEBytes 4 (((v - i32Min) % 2 ^ 32).toNat)

/-- `impl OffsetToBytes for i64`: `self.wrapping_sub(i64::MIN).to_le_bytes()`. -/
def i64_offset_to_bytes (v : Int) : List Nat :=
  toLEBytes 8 (((v - i64Min) % 2 ^ 64).toNat)

/-- `impl OffsetToBytes for i128`: `self.wrapping_sub(i128::MIN).to_le_bytes()`. -/
def i128_offset_to_bytes (v : Int) : List Nat :=
  toLEBytes 16 (((v - i128Min) % 2 ^ 128).toNat)

/-- `impl OffsetToBytes for bool`: `vec![*self as u8]`. -/
def bool_offset_to_bytes (b : Bool) : List Nat :=
  [if b then 1 else 0]

/-- A Rust `[u64; 4]` value: four 64-bit limbs. -/
structure U64x4 where
  l0 : Nat
  l1 : Nat
  l2 : Nat
  l3 : Nat
deriving DecidableEq

/-- `impl OffsetToBytes for [u64; 4]`: `self.as_bytes().to_vec()`, the raw
little-endian bytes of the four limbs in order. -/
def u64x4_offset_to_bytes (v : U64x4) : List Nat :=
  toLEBytes 8 v.l0 ++ toLEBytes 8 v.l1 ++ toLEBytes 8 v.l2 ++ toLEBytes 8 v.l3

/-- Modelled from the spec: the `CommittableColumn` enum (its definition lives
in `base/commitment`, outside the provided sources).  "a closed variant over
primitive kinds (narrow/medium/wide/extra-wide signed integers, a 4×64-bit
wide value used for decimals/scalars/strings, boolean, a timestamp backed by a
wide signed integer). Each variant owns a sequence of fixed-width values."
The variant names, payload element types and auxiliary parameters (decimal
precision/scale, timestamp unit/zone) follow their uses in
`pack_scalars.rs`. -/
inductive CommittableColumn where
  | SmallInt (col : List Int)
  | Int (col : List Int)
  | BigInt (col : List Int)
  | Int128 (col : List Int)
  | Decimal75 (precision : Nat) (scale : Int) (col : List U64x4)
  | Scalar (col : List U64x4)
  | VarChar (col : List U64x4)
  | Boolean (col : List Bool)
  | TimestampTZ (unit : Nat) (timezone : Nat) (col : List Int)

/-- Modelled from the spec: `CommittableColumn::len`, the number of elements
of the owned sequence ("Each variant owns a sequence of fixed-width
values"). -/
def CommittableColumn.len : CommittableColumn → Nat
  | .SmallInt c => c.length
  | .Int c => c.length
  | .BigInt c => c.length
  | .Int128 c => c.length
  | .Decimal75 _ _ c => c.length
  | .Scalar c => c.length
  | .VarChar c => c.length
  | .Boolean c => c.length
  | .TimestampTZ _ _ c => c.length

/-- `get_byte_size`: the byte size of a committable column's element type. -/
def get_byte_size : CommittableColumn → Nat
  | .SmallInt _ => 2
  | .Int _ => 4
  | .BigInt _ => 8
  | .Int128 _ => 16
  | .Decimal75 _ _ _ => 32
  | .Scalar _ => 32
  | .VarChar _ => 32
  | .Boolean _ => 1
  | .TimestampTZ _ _ _ => 8

/-- `get_bit_size`: `get_byte_size(column) * BYTE_SIZE`. -/
def get_bit_size (column : CommittableColumn) : Nat :=
  get_byte_size column * 8

/-- `get_output_bit_table`: one bit-size entry per committable column. -/
def get_output_bit_table (committable_columns : List CommittableColumn) : List Nat :=
  committable_columns.map get_bit_size

/-- `get_max_committable_column_length`:
`iter().map(len).max().unwrap_or(0)`. -/
def get_max_committable_column_length (committable_columns : List CommittableColumn) : Nat :=
  (committable_columns.map CommittableColumn.len).foldr max 0

/-- `get_repeated_bit_table`: each entry repeated `num_sub_commits` times. -/
def get_repeated_bit_table (bit_table : List Nat) (num_sub_commits : Nat) : List Nat :=
  bit_table.flatMap (fun value => List.replicate num_sub_commits value)

/-- `get_num_of_sub_commits_per_full_commit`:
`(max_column_length + num_columns - 1) / num_columns` with
`max_column_length = get_max_committable_column_length(..) + offset`. -/
def get_num_of_sub_commits_per_full_commit (committable_columns : List CommittableColumn)
    (offset num_columns : Nat) : Nat :=
  (get_max_committable_column_length committable_columns + offset + num_columns - 1) /
    num_columns

/-- Rust `buf[lo..lo + len].copy_from_slice(&src)`: requires the range to be
within bounds and `src` to have length exactly `len`, otherwise panics
(`none`). -/
def copyFromSlice (buf : List Nat) (lo len : Nat) (src : List Nat) : Option (List Nat) :=
  if lo + len ≤ buf.length ∧ src.length = len then
    some (buf.take lo ++ src ++ buf.drop (lo + len))
  else none

/-- The element loop of `pack_bit`, with `i` the running element index
(started at `0` by `pack_bit`).  Each element is copied verbatim into the
slice of `current_byte_size` bytes at
`((i + offset) % num_columns) * bit_table_sum_in_bytes
 + current_byte_size * ((i + offset) / num_columns) + byte_offset`. -/
def pack_bit_loop {α : Type} (enc : α → List Nat)
    (byte_offset offset current_byte_size bit_table_sum_in_bytes num_columns : Nat) :
    Nat → List α → List Nat → Option (List Nat)
  | _, [], buf => some buf
  | i, value :: rest, buf =>
    let row_offset := ((i + offset) % num_columns) * bit_table_sum_in_bytes
    let col_offset := current_byte_size * ((i + offset) / num_columns)
    let offset_idx := row_offset + col_offset + byte_offset
    match copyFromSlice buf offset_idx current_byte_size (enc value) with
    | some buf2 =>
        pack_bit_loop enc byte_offset offset current_byte_size bit_table_sum_in_bytes
          num_columns (i + 1) rest buf2
    | none => none

/-- `pack_bit`: packs the encoded bytes of every column element into the
packed scalars buffer; `byte_offset = current_bit_table_sum / BYTE_SIZE`. -/
def pack_bit {α : Type} (enc : α → List Nat) (column : List α) (packed_scalars : List Nat)
    (current_bit_table_sum offset current_byte_size bit_table_sum_in_bytes num_columns :
      Nat) : Option (List Nat) :=
  pack_bit_loop enc (current_bit_table_sum / 8) offset current_byte_size
    bit_table_sum_in_bytes num_columns 0 column packed_scalars

/-- The element loop of `pack_offset_bit`: writes the single byte `1` at
`((i + offset) % num_columns) * bit_table_sum_in_bytes
 + (i + offset) / num_columns + byte_offset` (panics, i.e. `none`, when the
index is out of bounds). -/
def pack_offset_bit_loop {α : Type}
    (byte_offset offset bit_table_sum_in_bytes num_columns : Nat) :
    Nat → List α → List Nat → Option (List Nat)
  | _, [], buf => some buf
  | i, _ :: rest, buf =>
    let row_offset := ((i + offset) % num_columns) * bit_table_sum_in_bytes
    let col_offset := (i + offset) / num_columns
    let offset_idx := row_offset + col_offset + byte_offset
    if offset_idx < buf.length then
      pack_offset_bit_loop byte_offset offset bit_table_sum_in_bytes num_columns
        (i + 1) rest (buf.set offset_idx 1)
    else none

/-- `pack_offset_bit`: scatters the constant byte `1` into the offset plane
for every element of a signed column;
`byte_offset = current_bit_table_sum / BYTE_SIZE`. -/
def pack_offset_bit {α : Type} (column : List α) (packed_scalars : List Nat)
    (current_bit_table_sum offset bit_table_sum_in_bytes num_columns : Nat) :
    Option (List Nat) :=
  pack_offset_bit_loop (current_bit_table_sum / 8) offset bit_table_sum_in_bytes
    num_columns 0 column packed_scalars

/-- The per-column body of the packing loop in
`get_bit_table_and_scalars_for_packed_msm`: dispatch on the column variant,
pack its data bytes, and for the signed variants (`SmallInt`, `Int`,
`BigInt`, `Int128`, `TimestampTZ`) also pack the offset bits. -/
def pack_column (column : CommittableColumn) (packed_scalars : List Nat)
    (current_bit_table_sum bit_table_offset_sum byte_size offset bit_table_sum_in_bytes
      num_columns : Nat) : Option (List Nat) :=
  match column with
  | .SmallInt c =>
    (pack_bit i16_offset_to_bytes c packed_scalars current_bit_table_sum offset byte_size
        bit_table_sum_in_bytes num_columns).bind
      (fun b => pack_offset_bit c b bit_table_offset_sum offset bit_table_sum_in_bytes
        num_columns)
  | .Int c =>
    (pack_bit i32_offset_to_bytes c packed_scalars current_bit_table_sum offset byte_size
        bit_table_sum_in_bytes num_columns).bind
      (fun b => pack_offset_bit c b bit_table_offset_sum offset bit_table_sum_in_bytes
        num_columns)
  | .BigInt c =>
    (pack_bit i64_offset_to_bytes c packed_scalars current_bit_table_sum offset byte_size
        bit_table_sum_in_bytes num_columns).bind
      (fun b => pack_offset_bit c b bit_table_offset_sum offset bit_table_sum_in_bytes
        num_columns)
  | .Int128 c =>
    (pack_bit i128_offset_to_bytes c packed_scalars current_bit_table_sum offset byte_size
        bit_table_sum_in_bytes num_columns).bind
      (fun b => pack_offset_bit c b bit_table_offset_sum offset bit_table_sum_in_bytes
        num_columns)
  | .TimestampTZ _ _ c =>
    (pack_bit i64_offset_to_bytes c packed_scalars current_bit_table_sum offset byte_size
        bit_table_sum_in_bytes num_columns).bind
      (fun b => pack_offset_bit c b bit_table_offset_sum offset bit_table_sum_in_bytes
        num_columns)
  | .Boolean c =>
    pack_bit bool_offset_to_bytes c packed_scalars current_bit_table_sum offset byte_size
      bit_table_sum_in_bytes num_columns
  | .Decimal75 _ _ c =>
    pack_bit u64x4_offset_to_bytes c packed_scalars current_bit_table_sum offset byte_size
      bit_table_sum_in_bytes num_columns
  | .Scalar c =>
    pack_bit u64x4_offset_to_bytes c packed_scalars current_bit_table_sum offset byte_size
      bit_table_sum_in_bytes num_columns
  | .VarChar c =>
    pack_bit u64x4_offset_to_bytes c packed_scalars current_bit_table_sum offset byte_size
      bit_table_sum_in_bytes num_columns

/-- The column loop of `get_bit_table_and_scalars_for_packed_msm`, with `i`
the running column index.  For column `i`,
`current_bit_table_sum = bit_table.take(i * num_sub_commits).sum` (and `0`
when `i = 0`),
`bit_table_offset_sum = bit_table_sub_commits_sum + i * 8 * num_sub_commits`,
and `byte_size = get_byte_size(column)`. -/
def pack_columns_loop (bit_table : List Nat) (bit_table_sub_commits_sum : Nat)
    (num_sub_commits_per_full_commit offset bit_table_sum_in_bytes num_columns : Nat) :
    Nat → List CommittableColumn → List Nat → Option (List Nat)
  | _, [], buf => some buf
  | i, column :: rest, buf =>
    let current_bit_table_sum :=
      if 0 < i then ((bit_table.take (i * num_sub_commits_per_full_commit)).sum) else 0
    let bit_table_offset_sum :=
      bit_table_sub_commits_sum + i * 8 * num_sub_commits_per_full_commit
    let byte_size := get_byte_size column
    match pack_column column buf current_bit_table_sum bit_table_offset_sum byte_size
        offset bit_table_sum_in_bytes num_columns with
    | some buf2 =>
        pack_columns_loop bit_table bit_table_sub_commits_sum
          num_sub_commits_per_full_commit offset bit_table_sum_in_bytes num_columns
          (i + 1) rest buf2
    | none => none

/-- The extended bit table built by `get_bit_table_and_scalars_for_packed_msm`:
the repeated (per sub-commit) bit table followed by one `BYTE_SIZE` entry per
sub-commit slot. -/
def extended_bit_table (committable_columns : List CommittableColumn)
    (num_sub_commits_per_full_commit : Nat) : List Nat :=
  let bit_table_sub_commits :=
    get_repeated_bit_table (get_output_bit_table committable_columns)
      num_sub_commits_per_full_commit
  bit_table_sub_commits ++ List.replicate bit_table_sub_commits.length 8

/-- `get_bit_table_and_scalars_for_packed_msm`: builds the extended bit table,
allocates the zeroed packed-scalar buffer of
`bit_table_sum_in_bytes * num_columns` bytes, and runs the per-column packing
loop.  `none` models a Rust panic (out-of-bounds write). -/
def get_bit_table_and_scalars_for_packed_msm (committable_columns : List CommittableColumn)
    (offset num_columns num_sub_commits_per_full_commit : Nat) :
    Option (List Nat × List Nat) :=
  let bit_table_full_commits := get_output_bit_table committable_columns
  let bit_table_sub_commits :=
    get_repeated_bit_table bit_table_full_commits num_sub_commits_per_full_commit
  let bit_table_sub_commits_sum := bit_table_sub_commits.sum
  let bit_table := bit_table_sub_commits ++ List.replicate bit_table_sub_commits.length 8
  let bit_table_sum_in_bytes := bit_table.sum / 8
  let packed_scalars := List.replicate (bit_table_sum_in_bytes * num_columns) 0
  match pack_columns_loop bit_table bit_table_sub_commits_sum
      num_sub_commits_per_full_commit offset bit_table_sum_in_bytes num_columns 0
      committable_columns packed_scalars with
  | some buf => some (bit_table, buf)
  | none => none

/-!
## Generic scatter-write machinery

The packing loops are sequences of guarded slice writes into a flat buffer:
`writeW` performs one write, `packWrites` a list of writes.
-/

/-- One guarded write of the bytes `w.2` at index `w.1`. -/
def writeW (buf : List Nat) (w : Nat × List Nat) : Option (List Nat) :=
  if w.1 + w.2.length ≤ buf.length then
    some (buf.take w.1 ++ w.2 ++ buf.drop (w.1 + w.2.length))
  else none

/-- A sequence of guarded writes, failing as soon as one write is out of
bounds. -/
def packWrites : List (Nat × List Nat) → List Nat → Option (List Nat)
  | [], buf => some buf
  | w :: ws, buf =>
    match writeW buf w with
    | some b2 => packWrites ws b2
    | none => none

/-- The write sequence performed by `pack_bit_loop`. -/
def bitWrites {α : Type} (enc : α → List Nat)
    (byte_offset offset current_byte_size bit_table_sum_in_bytes num_columns : Nat) :
    Nat → List α → List (Nat × List Nat)
  | _, [] => []
  | i, value :: rest =>
    (((i + offset) % num_columns) * bit_table_sum_in_bytes
        + current_byte_size * ((i + offset) / num_columns) + byte_offset, enc value)
      :: bitWrites enc byte_offset offset current_byte_size bit_table_sum_in_bytes
          num_columns (i + 1) rest

/-- The write sequence performed by `pack_offset_bit_loop`. -/
def offsetWrites {α : Type} (byte_offset offset bit_table_sum_in_bytes num_columns : Nat) :
    Nat → List α → List (Nat × List Nat)
  | _, [] => []
  | i, _ :: rest =>
    (((i + offset) % num_columns) * bit_table_sum_in_bytes
        + (i + offset) / num_columns + byte_offset, [1])
      :: offsetWrites byte_offset offset bit_table_sum_in_bytes num_columns (i + 1) rest

/-- The write sequence performed by `pack_column`: data-plane writes, then,
for the signed variants, offset-plane writes. -/
def columnWrites (column : CommittableColumn)
    (current_bit_table_sum bit_table_offset_sum byte_size offset bit_table_sum_in_bytes
      num_columns : Nat) : List (Nat × List Nat) :=
  match column with
  | .SmallInt c =>
    bitWrites i16_offset_to_bytes (current_bit_table_sum / 8) offset byte_size
        bit_table_sum_in_bytes num_columns 0 c
      ++ offsetWrites (bit_table_offset_sum / 8) offset bit_table_sum_in_bytes
          num_columns 0 c
  | .Int c =>
    bitWrites i32_offset_to_bytes (current_bit_table_sum / 8) offset byte_size
        bit_table_sum_in_bytes num_columns 0 c
      ++ offsetWrites (bit_table_offset_sum / 8) offset bit_table_sum_in_bytes
          num_columns 0 c
  | .BigInt c =>
    bitWrites i64_offset_to_bytes (current_bit_table_sum / 8) offset byte_size
        bit_table_sum_in_bytes num_columns 0 c
      ++ offsetWrites (bit_table_offset_sum / 8) offset bit_table_sum_in_bytes
          num_columns 0 c
  | .Int128 c =>
    bitWrites i128_offset_to_bytes (current_bit_table_sum / 8) offset byte_size
        bit_table_sum_in_bytes num_columns 0 c
      ++ offsetWrites (bit_table_offset_sum / 8) offset bit_table_sum_in_bytes
          num_columns 0 c
  | .TimestampTZ _ _ c =>
    bitWrites i64_offset_to_bytes (current_bit_table_sum / 8) offset byte_size
        bit_table_sum_in_bytes num_columns 0 c
      ++ offsetWrites (bit_table_offset_sum / 8) offset bit_table_sum_in_bytes
          num_columns 0 c
  | .Boolean c =>
    bitWrites bool_offset_to_bytes (current_bit_table_sum / 8) offset byte_size
      bit_table_sum_in_bytes num_columns 0 c
  | .Decimal75 _ _ c =>
    bitWrites u64x4_offset_to_bytes (current_bit_table_sum / 8) offset byte_size
      bit_table_sum_in_bytes num_columns 0 c
  | .Scalar c =>
    bitWrites u64x4_offset_to_bytes (current_bit_table_sum / 8) offset byte_size
      bit_table_sum_in_bytes num_columns 0 c
  | .VarChar c =>
    bitWrites u64x4_offset_to_bytes (current_bit_table_sum / 8) offset byte_size
      bit_table_sum_in_bytes num_columns 0 c

/-- The write sequence performed by `pack_columns_loop`. -/
def columnsWrites (bit_table : List Nat)
    (bit_table_sub_commits_sum n offset bit_table_sum_in_bytes num_columns : Nat) :
    Nat → List CommittableColumn → List (Nat × List Nat)
  | _, [] => []
  | i, column :: rest =>
    columnWrites column (if 0 < i then ((bit_table.take (i * n)).sum) else 0)
        (bit_table_sub_commits_sum + i * 8 * n) (get_byte_size column) offset
        bit_table_sum_in_bytes num_columns
      ++ columnsWrites bit_table bit_table_sub_commits_sum n offset
          bit_table_sum_in_bytes num_columns (i + 1) rest

/-!
## Bit-table arithmetic
-/

/-- Total byte width of a column batch. -/
def cols_byte_sum (cols : List CommittableColumn) : Nat :=
  (cols.map get_byte_size).sum

/-- Byte width of the first `c` columns of a batch. -/
def cols_byte_take (cols : List CommittableColumn) (c : Nat) : Nat :=
  ((cols.take c).map get_byte_size).sum

/-- The row width (in bytes) of the packed buffer:
`(extended bit table).sum / 8`. -/
def row_byte_width (cols : List CommittableColumn) (m : Nat) : Nat :=
  m * cols_byte_sum cols + m * cols.length

/-!
## Row bands
-/

/-- A write sits in the per-row byte band `[lo, hi)`: its address is
`r * B + d` for some row `r < nc` and in-row offset `d` with `lo ≤ d` and
`d + size ≤ hi`. -/
def InBand (B nc lo hi : Nat) (w : Nat × List Nat) : Prop :=
  ∃ r d, r < nc ∧ w.1 = r * B + d ∧ lo ≤ d ∧ d + w.2.length ≤ hi

/-- The encoded bytes of each element of a column, in order, as produced by
the variant's `OffsetToBytes` implementation. -/
def CommittableColumn.encBytes : CommittableColumn → List (List Nat)
  | .SmallInt c => c.map i16_offset_to_bytes
  | .Int c => c.map i32_offset_to_bytes
  | .BigInt c => c.map i64_offset_to_bytes
  | .Int128 c => c.map i128_offset_to_bytes
  | .Decimal75 _ _ c => c.map u64x4_offset_to_bytes
  | .Scalar c => c.map u64x4_offset_to_bytes
  | .VarChar c => c.map u64x4_offset_to_bytes
  | .Boolean c => c.map bool_offset_to_bytes
  | .TimestampTZ _ _ c => c.map i64_offset_to_bytes

/-- Whether `get_bit_table_and_scalars_for_packed_msm` runs the offset-plane
pass (`pack_offset_bit`) for this variant: the four signed-integer variants
and `TimestampTZ`. -/
def CommittableColumn.writesOffsetPlane : CommittableColumn → Bool
  | .SmallInt _ => true
  | .Int _ => true
  | .BigInt _ => true
  | .Int128 _ => true
  | .Decimal75 _ _ _ => false
  | .Scalar _ => false
  | .VarChar _ => false
  | .Boolean _ => false
  | .TimestampTZ _ _ _ => true

/-!
## CompositePolynomialBuilder (`sql/proof/composite_polynomial_builder.rs`)
-/

/-- Modelled from the spec: the order of `ArkScalar`, the scalar field of the
proofs crate (the concrete field is opaque external data for the builder; the
spec only requires field values). -/
def arkScalarOrder : Nat :=
  7237005577332262213973186563042994240857116359379907606001950938285454250989

/-- Modelled from the spec: `ArkScalar` field elements. -/
abbrev ArkScalar := ZMod arkScalarOrder

/-- Modelled from the spec: a `MultilinearExtension`/`EvaluationVector`
reference — "a named reference to a sequence of field values ... with an
identity distinct from its contents, used for deduplication".  `id` models the
stable reference identity that the Rust code reads from the data pointer
(`*const c_void`). -/
structure MultilinearExtension where
  id : Nat
  values : List ArkScalar

/-- Modelled from the spec: `to_sumcheck_term` materializes an evaluation
vector "pre-padded to the hypercube length": zero-padded to length
`2 ^ num_sumcheck_variables`. -/
def toSumcheckTerm (num_vars : Nat) (v : List ArkScalar) : List ArkScalar :=
  v ++ List.replicate (2 ^ num_vars - v.length) 0

/-- Modelled from the spec: `MultilinearExtension::mul_add` — "fold
`mult * terms[0][k]` into accumulator slot `k` for every `k`". -/
def MultilinearExtension.mul_add (term : MultilinearExtension) (res : List ArkScalar)
    (mult : ArkScalar) : List ArkScalar :=
  res.mapIdx (fun k v => v + mult * (term.values.getD k 0))

/-- The builder state of `CompositePolynomialBuilder`.  The Rust
`HashMap<*const c_void, Rc<Vec<ArkScalar>>>` cache becomes an association
list keyed by the reference identity; `Rc<Vec<ArkScalar>>` becomes the list
of values. -/
structure CompositePolynomialBuilder where
  num_sumcheck_variables : Nat
  fr_multiplicands_degree1 : List ArkScalar
  fr_multiplicands_rest : List (ArkScalar × List (List ArkScalar))
  zerosum_multiplicands : List (ArkScalar × List (List ArkScalar))
  fr : List ArkScalar
  mles : List (Nat × List ArkScalar)

/-- `CompositePolynomialBuilder::new`: asserts
`1 << num_sumcheck_variables >= fr.len()` (`none` on violation), zero-fills
the degree-1 accumulator at the unpadded length, and pre-pads `fr`. -/
def CompositePolynomialBuilder.new (num_sumcheck_variables : Nat)
    (fr : List ArkScalar) : Option CompositePolynomialBuilder :=
  if fr.length ≤ 2 ^ num_sumcheck_variables then
    some
      { num_sumcheck_variables := num_sumcheck_variables,
        fr_multiplicands_degree1 := List.replicate fr.length 0,
        fr_multiplicands_rest := [],
        zerosum_multiplicands := [],
        fr := toSumcheckTerm num_sumcheck_variables fr,
        mles := [] }
  else none

/-- `create_multiplicand_with_deduplicated_mles`: for each term in order, a
cache hit returns the shared materialization; a miss materializes
(`to_sumcheck_term`), inserts it keyed by the term's identity, and returns
it. -/
def create_multiplicand_with_deduplicated_mles (b : CompositePolynomialBuilder) :
    List MultilinearExtension → List (List ArkScalar) × CompositePolynomialBuilder
  | [] => ([], b)
  | term :: rest =>
    match b.mles.lookup term.id with
    | some term_p =>
      let p := create_multiplicand_with_deduplicated_mles b rest
      (term_p :: p.1, p.2)
    | none =>
      let term_p := toSumcheckTerm b.num_sumcheck_variables term.values
      let b1 := { b with mles := b.mles ++ [(term.id, term_p)] }
      let p := create_multiplicand_with_deduplicated_mles b1 rest
      (term_p :: p.1, p.2)

/-- `produce_fr_multiplicand`: empty terms broadcast `mult` into the degree-1
accumulator; a single term folds via `mul_add`; otherwise the deduplicated
materializations are appended with their coefficient to the fr-weighted
product list. -/
def produce_fr_multiplicand (b : CompositePolynomialBuilder) (mult : ArkScalar) :
    List MultilinearExtension → CompositePolynomialBuilder
  | [] =>
    { b with fr_multiplicands_degree1 :=
        b.fr_multiplicands_degree1.map (fun val => val + mult) }
  | [term] =>
    { b with fr_multiplicands_degree1 := term.mul_add b.fr_multiplicands_degree1 mult }
  | term :: term2 :: rest =>
    let p := create_multiplicand_with_deduplicated_mles b (term :: term2 :: rest)
    { p.2 with fr_multiplicands_rest := p.2.fr_multiplicands_rest ++ [(mult, p.1)] }

/-- `produce_zerosum_multiplicand`: `assert!(!terms.is_empty())` (`none` on
violation), then appends the deduplicated product to the zero-sum list. -/
def produce_zerosum_multiplicand (b : CompositePolynomialBuilder) (mult : ArkScalar)
    (terms : List MultilinearExtension) : Option CompositePolynomialBuilder :=
  if terms.isEmpty then none
  else
    let p := create_multiplicand_with_deduplicated_mles b terms
    some { p.2 with zerosum_multiplicands := p.2.zerosum_multiplicands ++ [(mult, p.1)] }

/-- Modelled from the spec: a `CompositePolynomial` is "a sum of
scalar-weighted products of padded EvaluationVectors", held as an ordered
list of `(coefficient, factor list)` products. -/
structure CompositePolynomial where
  num_variables : Nat
  products : List (ArkScalar × List (List ArkScalar))

/-- Modelled from the spec: `CompositePolynomial::new`. -/
def CompositePolynomial.new (num_variables : Nat) : CompositePolynomial :=
  { num_variables := num_variables, products := [] }

/-- Modelled from the spec: `CompositePolynomial::add_product` records one
scalar-weighted product. -/
def CompositePolynomial.add_product (p : CompositePolynomial)
    (terms : List (List ArkScalar)) (coeff : ArkScalar) : CompositePolynomial :=
  { p with products := p.products ++ [(coeff, terms)] }

/-- Modelled from the spec: `annotate_trace` attaches tracing metadata only;
the polynomial data is unchanged. -/
def CompositePolynomial.annotate_trace (p : CompositePolynomial) : CompositePolynomial :=
  p

/-- `make_composite_polynomial`, a `&self` method: reads the builder and
assembles the polynomial — one product `[fr, padded degree-1 accumulator]`
with coefficient 1, then `[fr] ++ terms` for every fr-weighted product, then
`terms` for every zero-sum product.  The returned builder component is the
translation of the shared borrow: the state handed back to the caller,
rebuilt field by field from what the method may read. -/
def make_composite_polynomial (b : CompositePolynomialBuilder) :
    CompositePolynomialBuilder × CompositePolynomial :=
  let res0 := CompositePolynomial.new b.num_sumcheck_variables
  let res1 := res0.add_product
    [b.fr, toSumcheckTerm b.num_sumcheck_variables b.fr_multiplicands_degree1] 1
  let res2 := b.fr_multiplicands_rest.foldl
    (fun res pr => res.add_product (b.fr :: pr.2) pr.1) res1
  let res3 := b.zerosum_multiplicands.foldl
    (fun res pr => res.add_product pr.2 pr.1) res2
  ({ num_sumcheck_variables := b.num_sumcheck_variables,
     fr_multiplicands_degree1 := b.fr_multiplicands_degree1,
     fr_multiplicands_rest := b.fr_multiplicands_rest,
     zerosum_multiplicands := b.zerosum_multiplicands,
     fr := b.fr,
     mles := b.mles }, res3.annotate_trace)

/-- One recorded builder interaction: an fr-weighted term or a zero-sum
term. -/
inductive BuilderCall where
  | frTerm (mult : ArkScalar) (terms : List MultilinearExtension)
  | zerosumTerm (mult : ArkScalar) (terms : List MultilinearExtension)

/-- The terms referenced by a call. -/
def BuilderCall.callTerms : BuilderCall → List MultilinearExtension
  | .frTerm _ terms => terms
  | .zerosumTerm _ terms => terms

/-- Run a sequence of builder calls; `none` models a panic (the zero-sum
assertion). -/
def runCalls (b : CompositePolynomialBuilder) :
    List BuilderCall → Option CompositePolynomialBuilder
  | [] => some b
  | (BuilderCall.frTerm mult terms) :: rest =>
    runCalls (produce_fr_multiplicand b mult terms) rest
  | (BuilderCall.zerosumTerm mult terms) :: rest =>
    match produce_zerosum_multiplicand b mult terms with
    | some b2 => runCalls b2 rest
    | none => none

/-- The dedup invariant: distinct cache keys, every multi-term product factor
is a cache entry, and every cache entry is padded to the hypercube length. -/
def BuilderInv (b : CompositePolynomialBuilder) : Prop :=
  (b.mles.map Prod.fst).Nodup ∧
  (∀ pr ∈ b.fr_multiplicands_rest ++ b.zerosum_multiplicands, ∀ e ∈ pr.2,
    ∃ x, b.mles.lookup x = some e) ∧
  (∀ x v, b.mles.lookup x = some v → v.length = 2 ^ b.num_sumcheck_variables)


/-!
## Theorems
-/

theorem writeW_isSome {buf : List Nat} {w : Nat × List Nat}
    (h : w.1 + w.2.length ≤ buf.length) :
    writeW buf w = some (buf.take w.1 ++ w.2 ++ buf.drop (w.1 + w.2.length)) := by
  simp [writeW, h]

theorem writeW_length {buf b' : List Nat} {w : Nat × List Nat}
    (h : writeW buf w = some b') : b'.length = buf.length := by
  unfold writeW at h
  split at h
  · rename_i hle
    cases h
    simp only [List.length_append, List.length_take, List.length_drop]
    omega
  · exact absurd h (by simp)

theorem writeW_bound {buf b' : List Nat} {w : Nat × List Nat}
    (h : writeW buf w = some b') : w.1 + w.2.length ≤ buf.length := by
  unfold writeW at h
  split at h
  · assumption
  · exact absurd h (by simp)

/-- Pointwise value of a buffer after a write, outside the written region. -/
theorem writeW_getD_frame {buf b' : List Nat} {w : Nat × List Nat} {q : Nat}
    (h : writeW buf w = some b') (hq : q < w.1 ∨ w.1 + w.2.length ≤ q) :
    b'.getD q 0 = buf.getD q 0 := by
  have hb := writeW_bound h
  unfold writeW at h
  rw [if_pos hb] at h
  cases h
  have h1 : (List.take w.1 buf).length = w.1 := by
    rw [List.length_take]; omega
  have h2 : (List.take w.1 buf ++ w.2).length = w.1 + w.2.length := by
    rw [List.length_append, h1]
  rcases hq with hq | hq
  · rw [List.getD_eq_getElem?_getD, List.getD_eq_getElem?_getD,
      List.getElem?_append_left (by rw [h2]; omega),
      List.getElem?_append_left (by rw [h1]; omega),
      List.getElem?_take]
    simp [hq]
  · rw [List.getD_eq_getElem?_getD, List.getD_eq_getElem?_getD,
      List.getElem?_append_right (by rw [h2]; omega), h2,
      List.getElem?_drop]
    have h3 : w.1 + w.2.length + (q - (w.1 + w.2.length)) = q := by omega
    rw [h3]

/-- Pointwise value of a buffer after a write, inside the written region. -/
theorem writeW_getD_read {buf b' : List Nat} {w : Nat × List Nat} {t : Nat}
    (h : writeW buf w = some b') (ht : t < w.2.length) :
    b'.getD (w.1 + t) 0 = w.2.getD t 0 := by
  have hb := writeW_bound h
  unfold writeW at h
  rw [if_pos hb] at h
  cases h
  have h1 : (List.take w.1 buf).length = w.1 := by
    rw [List.length_take]; omega
  have h2 : (List.take w.1 buf ++ w.2).length = w.1 + w.2.length := by
    rw [List.length_append, h1]
  rw [List.getD_eq_getElem?_getD, List.getD_eq_getElem?_getD,
    List.getElem?_append_left (by rw [h2]; omega),
    List.getElem?_append_right (by rw [h1]; omega), h1]
  have h3 : w.1 + t - w.1 = t := by omega
  rw [h3]

theorem packWrites_length {ws : List (Nat × List Nat)} :
    ∀ {buf b' : List Nat}, packWrites ws buf = some b' → b'.length = buf.length := by
  induction ws with
  | nil => intro buf b' h; cases h; rfl
  | cons w ws ih =>
    intro buf b' h
    unfold packWrites at h
    cases hw : writeW buf w with
    | none => rw [hw] at h; exact absurd h (by simp)
    | some b2 =>
      rw [hw] at h
      exact (ih h).trans (writeW_length hw)

theorem packWrites_some {ws : List (Nat × List Nat)} :
    ∀ {buf : List Nat}, (∀ w ∈ ws, w.1 + w.2.length ≤ buf.length) →
      ∃ b', packWrites ws buf = some b' := by
  induction ws with
  | nil => intro buf _; exact ⟨buf, rfl⟩
  | cons w ws ih =>
    intro buf h
    have hw := writeW_isSome (h w (by simp))
    have h2 : ∀ w' ∈ ws, w'.1 + w'.2.length ≤
        (buf.take w.1 ++ w.2 ++ buf.drop (w.1 + w.2.length)).length := by
      intro w' hw'
      have := writeW_length hw
      rw [this]
      exact h w' (by simp [hw'])
    obtain ⟨b', hb'⟩ := ih h2
    exact ⟨b', by unfold packWrites; rw [hw]; exact hb'⟩

theorem packWrites_append {ws1 ws2 : List (Nat × List Nat)} :
    ∀ {buf : List Nat}, packWrites (ws1 ++ ws2) buf =
      (packWrites ws1 buf).bind (packWrites ws2) := by
  induction ws1 with
  | nil => intro buf; simp [packWrites]
  | cons w ws ih =>
    intro buf
    simp only [List.cons_append, packWrites]
    cases hw : writeW buf w with
    | none => simp
    | some b2 => exact ih

/-- A buffer position disjoint from every write is unchanged by the whole
sequence. -/
theorem packWrites_getD_frame {ws : List (Nat × List Nat)} :
    ∀ {buf b' : List Nat} {q : Nat}, packWrites ws buf = some b' →
      (∀ w ∈ ws, q < w.1 ∨ w.1 + w.2.length ≤ q) →
      b'.getD q 0 = buf.getD q 0 := by
  induction ws with
  | nil => intro buf b' q h _; cases h; rfl
  | cons w ws ih =>
    intro buf b' q h hq
    unfold packWrites at h
    cases hw : writeW buf w with
    | none => rw [hw] at h; exact absurd h (by simp)
    | some b2 =>
      rw [hw] at h
      rw [ih h (fun w' hw' => hq w' (by simp [hw']))]
      exact writeW_getD_frame hw (hq w (by simp))

/-- Read-back: after a write whose region is disjoint from every later write,
the written bytes persist to the end of the sequence. -/
theorem packWrites_getD_read {ws1 ws2 : List (Nat × List Nat)} {a : Nat}
    {src : List Nat} {buf b' : List Nat} {t : Nat}
    (h : packWrites (ws1 ++ (a, src) :: ws2) buf = some b')
    (hdisj : ∀ w ∈ ws2, a + src.length ≤ w.1 ∨ w.1 + w.2.length ≤ a)
    (ht : t < src.length) :
    b'.getD (a + t) 0 = src.getD t 0 := by
  rw [packWrites_append] at h
  cases h1 : packWrites ws1 buf with
  | none => rw [h1] at h; exact absurd h (by simp)
  | some b1 =>
    rw [h1] at h
    replace h : packWrites ((a, src) :: ws2) b1 = some b' := h
    unfold packWrites at h
    cases hw : writeW b1 (a, src) with
    | none => rw [hw] at h; exact absurd h (by simp)
    | some b2 =>
      rw [hw] at h
      have hframe : b'.getD (a + t) 0 = b2.getD (a + t) 0 := by
        apply packWrites_getD_frame h
        intro w hw'
        rcases hdisj w hw' with hd | hd
        · left; omega
        · right; omega
      rw [hframe]
      exact writeW_getD_read hw ht

theorem toLEBytes_length : ∀ (w n : Nat), (toLEBytes w n).length = w := by
  intro w
  induction w with
  | zero => intro n; rfl
  | succ w ih => intro n; simp [toLEBytes, ih]

theorem i16_offset_to_bytes_length (v : Int) : (i16_offset_to_bytes v).length = 2 :=
  toLEBytes_length 2 _

theorem i32_offset_to_bytes_length (v : Int) : (i32_offset_to_bytes v).length = 4 :=
  toLEBytes_length 4 _

theorem i64_offset_to_bytes_length (v : Int) : (i64_offset_to_bytes v).length = 8 :=
  toLEBytes_length 8 _

theorem i128_offset_to_bytes_length (v : Int) : (i128_offset_to_bytes v).length = 16 :=
  toLEBytes_length 16 _

theorem bool_offset_to_bytes_length (b : Bool) : (bool_offset_to_bytes b).length = 1 := by
  cases b <;> rfl

theorem u64x4_offset_to_bytes_length (v : U64x4) : (u64x4_offset_to_bytes v).length = 32 := by
  simp [u64x4_offset_to_bytes, toLEBytes_length]

theorem pack_bit_loop_eq {α : Type} {enc : α → List Nat} {cbs : Nat}
    (henc : ∀ v, (enc v).length = cbs) (bo off B nc : Nat) :
    ∀ (col : List α) (i : Nat) (buf : List Nat),
      pack_bit_loop enc bo off cbs B nc i col buf =
        packWrites (bitWrites enc bo off cbs B nc i col) buf := by
  intro col
  induction col with
  | nil => intro i buf; rfl
  | cons v rest ih =>
    intro i buf
    simp only [pack_bit_loop, bitWrites, packWrites, copyFromSlice, writeW, henc v]
    by_cases hle :
        ((i + off) % nc) * B + cbs * ((i + off) / nc) + bo + cbs ≤ buf.length
    · simp only [hle, and_true, if_true, true_and, if_pos]
      exact ih (i + 1) _
    · simp [hle]

theorem pack_offset_bit_loop_eq {α : Type} (bo off B nc : Nat) :
    ∀ (col : List α) (i : Nat) (buf : List Nat),
      pack_offset_bit_loop bo off B nc i col buf =
        packWrites (offsetWrites bo off B nc i col) buf := by
  intro col
  induction col with
  | nil => intro i buf; rfl
  | cons v rest ih =>
    intro i buf
    simp only [pack_offset_bit_loop, offsetWrites, packWrites, writeW]
    by_cases hlt : ((i + off) % nc) * B + (i + off) / nc + bo < buf.length
    · have hle : ((i + off) % nc) * B + (i + off) / nc + bo + [1].length ≤ buf.length := by
        simp; omega
      rw [if_pos hlt, if_pos hle]
      have hset : buf.set (((i + off) % nc) * B + (i + off) / nc + bo) 1 =
          buf.take (((i + off) % nc) * B + (i + off) / nc + bo) ++ [1] ++
            buf.drop (((i + off) % nc) * B + (i + off) / nc + bo + [1].length) := by
        rw [List.set_eq_take_cons_drop _ hlt]
        simp
      rw [hset]
      exact ih (i + 1) _
    · rw [if_neg hlt, if_neg (by simp; omega)]

theorem pack_column_eq (column : CommittableColumn)
    (cbts bto bs offset B nc : Nat) (hbs : bs = get_byte_size column)
    (buf : List Nat) :
    pack_column column buf cbts bto bs offset B nc =
      packWrites (columnWrites column cbts bto bs offset B nc) buf := by
  subst hbs
  cases column with
  | SmallInt c =>
    simp only [pack_column, pack_bit, pack_offset_bit, columnWrites, get_byte_size,
      pack_bit_loop_eq i16_offset_to_bytes_length, pack_offset_bit_loop_eq,
      packWrites_append]
  | Int c =>
    simp only [pack_column, pack_bit, pack_offset_bit, columnWrites, get_byte_size,
      pack_bit_loop_eq i32_offset_to_bytes_length, pack_offset_bit_loop_eq,
      packWrites_append]
  | BigInt c =>
    simp only [pack_column, pack_bit, pack_offset_bit, columnWrites, get_byte_size,
      pack_bit_loop_eq i64_offset_to_bytes_length, pack_offset_bit_loop_eq,
      packWrites_append]
  | Int128 c =>
    simp only [pack_column, pack_bit, pack_offset_bit, columnWrites, get_byte_size,
      pack_bit_loop_eq i128_offset_to_bytes_length, pack_offset_bit_loop_eq,
      packWrites_append]
  | TimestampTZ u z c =>
    simp only [pack_column, pack_bit, pack_offset_bit, columnWrites, get_byte_size,
      pack_bit_loop_eq i64_offset_to_bytes_length, pack_offset_bit_loop_eq,
      packWrites_append]
  | Boolean c =>
    simp only [pack_column, pack_bit, columnWrites, get_byte_size,
      pack_bit_loop_eq bool_offset_to_bytes_length]
  | Decimal75 p s c =>
    simp only [pack_column, pack_bit, columnWrites, get_byte_size,
      pack_bit_loop_eq u64x4_offset_to_bytes_length]
  | Scalar c =>
    simp only [pack_column, pack_bit, columnWrites, get_byte_size,
      pack_bit_loop_eq u64x4_offset_to_bytes_length]
  | VarChar c =>
    simp only [pack_column, pack_bit, columnWrites, get_byte_size,
      pack_bit_loop_eq u64x4_offset_to_bytes_length]

theorem pack_columns_loop_eq (bit_table : List Nat) (ss n offset B nc : Nat) :
    ∀ (cols : List CommittableColumn) (i : Nat) (buf : List Nat),
      pack_columns_loop bit_table ss n offset B nc i cols buf =
        packWrites (columnsWrites bit_table ss n offset B nc i cols) buf := by
  intro cols
  induction cols with
  | nil => intro i buf; rfl
  | cons column rest ih =>
    intro i buf
    simp only [pack_columns_loop, columnsWrites, packWrites_append,
      pack_column_eq column _ _ _ _ _ _ rfl]
    cases h : packWrites
        (columnWrites column (if 0 < i then ((bit_table.take (i * n)).sum) else 0)
          (ss + i * 8 * n) (get_byte_size column) offset B nc) buf with
    | none => simp [h]
    | some b2 => simp [h, ih]

/-- `get_bit_table_and_scalars_for_packed_msm` as a write sequence on the
zero-initialized buffer. -/
theorem get_bit_table_and_scalars_eq (cols : List CommittableColumn)
    (offset nc m : Nat) :
    get_bit_table_and_scalars_for_packed_msm cols offset nc m =
      (packWrites
          (columnsWrites (extended_bit_table cols m)
            (get_repeated_bit_table (get_output_bit_table cols) m).sum m offset
            ((extended_bit_table cols m).sum / 8) nc 0 cols)
          (List.replicate ((extended_bit_table cols m).sum / 8 * nc) 0)).map
        (fun buf => (extended_bit_table cols m, buf)) := by
  simp only [get_bit_table_and_scalars_for_packed_msm, extended_bit_table]
  rw [pack_columns_loop_eq]
  generalize packWrites _ _ = res
  cases res <;> rfl

theorem repeated_bit_table_sum (bt : List Nat) (m : Nat) :
    (get_repeated_bit_table bt m).sum = m * bt.sum := by
  induction bt with
  | nil => simp [get_repeated_bit_table]
  | cons v rest ih =>
    simp [get_repeated_bit_table, List.flatMap_cons, List.sum_append,
      List.sum_replicate, smul_eq_mul] at *
    rw [ih]
    ring

theorem repeated_bit_table_length (bt : List Nat) (m : Nat) :
    (get_repeated_bit_table bt m).length = bt.length * m := by
  induction bt with
  | nil => simp [get_repeated_bit_table]
  | cons v rest ih =>
    simp [get_repeated_bit_table, List.flatMap_cons] at *
    rw [ih]
    ring

theorem output_bit_table_sum (cols : List CommittableColumn) :
    (get_output_bit_table cols).sum = 8 * cols_byte_sum cols := by
  induction cols with
  | nil => simp [get_output_bit_table, cols_byte_sum]
  | cons col rest ih =>
    simp [get_output_bit_table, cols_byte_sum, get_bit_size] at *
    rw [ih]
    ring

theorem extended_bit_table_sum (cols : List CommittableColumn) (m : Nat) :
    (extended_bit_table cols m).sum = 8 * row_byte_width cols m := by
  simp only [extended_bit_table, List.sum_append, repeated_bit_table_sum,
    output_bit_table_sum, List.sum_replicate, smul_eq_mul,
    repeated_bit_table_length, row_byte_width]
  have : (get_output_bit_table cols).length = cols.length := by
    simp [get_output_bit_table]
  rw [this]
  ring

theorem extended_bit_table_sum_div (cols : List CommittableColumn) (m : Nat) :
    (extended_bit_table cols m).sum / 8 = row_byte_width cols m := by
  rw [extended_bit_table_sum]
  omega

theorem extended_bit_table_length (cols : List CommittableColumn) (m : Nat) :
    (extended_bit_table cols m).length = 2 * cols.length * m := by
  unfold extended_bit_table
  rw [List.length_append, List.length_replicate, repeated_bit_table_length]
  simp only [get_output_bit_table, List.length_map]
  ring

theorem cols_byte_take_zero (cols : List CommittableColumn) : cols_byte_take cols 0 = 0 := by
  simp [cols_byte_take]

theorem cols_byte_take_succ (cols : List CommittableColumn) (c : Nat)
    (hc : c < cols.length) :
    cols_byte_take cols (c + 1) =
      cols_byte_take cols c + get_byte_size (cols.get ⟨c, hc⟩) := by
  unfold cols_byte_take
  rw [List.map_take, List.map_take, List.take_succ]
  have h1 : (cols.map get_byte_size)[c]? = some (get_byte_size (cols.get ⟨c, hc⟩)) := by
    rw [List.getElem?_map, List.getElem?_eq_getElem hc]
    simp [List.get_eq_getElem]
  rw [h1]
  simp

theorem cols_byte_take_le (cols : List CommittableColumn) (c : Nat) :
    cols_byte_take cols c ≤ cols_byte_sum cols := by
  unfold cols_byte_take cols_byte_sum
  rw [List.map_take]
  conv_rhs => rw [← List.take_append_drop c (cols.map get_byte_size)]
  rw [List.sum_append]
  omega

theorem cols_byte_take_mono (cols : List CommittableColumn) {c c' : Nat} (h : c ≤ c') :
    cols_byte_take cols c ≤ cols_byte_take cols c' := by
  unfold cols_byte_take
  rw [List.map_take, List.map_take]
  have h2 : ((cols.map get_byte_size).take c').take c =
      (cols.map get_byte_size).take c := by
    rw [List.take_take]
    congr 1
    omega
  rw [← h2]
  conv_rhs => rw [← List.take_append_drop c ((cols.map get_byte_size).take c')]
  rw [List.sum_append]
  omega

/-- The prefix sum of the extended bit table at data slot `c * m + s`:
elements preceding the `s`-th sub-commit slot of column `c`. -/
theorem extended_bit_table_take_sum (cols : List CommittableColumn) (m : Nat) :
    ∀ (c : Nat) (hc : c < cols.length) (s : Nat), s ≤ m →
      ((extended_bit_table cols m).take (c * m + s)).sum =
        8 * (m * cols_byte_take cols c + s * get_byte_size (cols.get ⟨c, hc⟩)) := by
  have key : ∀ (cols : List CommittableColumn) (c : Nat) (hc : c < cols.length) (s : Nat),
      s ≤ m →
      ((get_repeated_bit_table (get_output_bit_table cols) m).take (c * m + s)).sum =
        8 * (m * cols_byte_take cols c + s * get_byte_size (cols.get ⟨c, hc⟩)) := by
    intro cols
    induction cols with
    | nil => intro c hc; simp at hc
    | cons col rest ih =>
      intro c hc s hs
      cases c with
      | zero =>
        simp only [get_output_bit_table, List.map_cons, get_repeated_bit_table,
          List.flatMap_cons, Nat.zero_mul, Nat.zero_add]
        rw [List.take_append_of_le_length (by simp [hs])]
        simp [List.take_replicate, Nat.min_eq_left hs, List.sum_replicate, smul_eq_mul,
          cols_byte_take_zero, get_bit_size]
        ring
      | succ c' =>
        simp only [get_output_bit_table, List.map_cons, get_repeated_bit_table,
          List.flatMap_cons]
        have harith : (c' + 1) * m + s = (List.replicate m (get_bit_size col)).length +
            (c' * m + s) := by
          simp [List.length_replicate]
          ring
        rw [harith, List.take_append]
        simp only [List.sum_append, List.sum_replicate, smul_eq_mul]
        have hc' : c' < rest.length := by simpa using hc
        have ihr := ih c' hc' s hs
        simp only [get_output_bit_table, get_repeated_bit_table] at ihr
        rw [ihr]
        have hget : (col :: rest).get ⟨c' + 1, hc⟩ = rest.get ⟨c', hc'⟩ := rfl
        have htake : cols_byte_take (col :: rest) (c' + 1) =
            get_byte_size col + cols_byte_take rest c' := by
          simp [cols_byte_take]
        rw [hget, htake, get_bit_size]
        ring
  intro c hc s hs
  have hlen : c * m + s ≤ (get_repeated_bit_table (get_output_bit_table cols) m).length := by
    rw [repeated_bit_table_length]
    simp only [get_output_bit_table, List.length_map]
    have : c + 1 ≤ cols.length := hc
    calc c * m + s ≤ c * m + m := by omega
    _ = (c + 1) * m := by ring
    _ ≤ cols.length * m := Nat.mul_le_mul_right m this
  unfold extended_bit_table
  rw [List.take_append_of_le_length hlen]
  exact key cols c hc s hs

theorem inBand_bound {B nc lo hi : Nat} {w : Nat × List Nat}
    (h : InBand B nc lo hi w) (hhi : hi ≤ B) : w.1 + w.2.length ≤ B * nc := by
  obtain ⟨r, d, hr, haddr, _, hd2⟩ := h
  have h1 : (r + 1) * B ≤ nc * B := Nat.mul_le_mul_right B hr
  have h2 : r * B + B = (r + 1) * B := by ring
  have h3 : nc * B = B * nc := Nat.mul_comm nc B
  omega

/-- Writes in disjoint per-row bands have disjoint regions, whatever their
rows. -/
theorem inBand_disjoint {B nc lo hi lo' hi' : Nat} {w w' : Nat × List Nat}
    (h : InBand B nc lo hi w) (h' : InBand B nc lo' hi' w')
    (hsep : hi ≤ lo' ∨ hi' ≤ lo) (hhi : hi ≤ B) (hhi' : hi' ≤ B) :
    w.1 + w.2.length ≤ w'.1 ∨ w'.1 + w'.2.length ≤ w.1 := by
  obtain ⟨r, d, hr, haddr, hd1, hd2⟩ := h
  obtain ⟨r', d', hr', haddr', hd1', hd2'⟩ := h'
  rcases Nat.lt_trichotomy r r' with hrr | hrr | hrr
  · left
    have h1 : (r + 1) * B ≤ r' * B := Nat.mul_le_mul_right B hrr
    have h2 : r * B + B = (r + 1) * B := by ring
    omega
  · subst hrr
    rcases hsep with hs | hs
    · left; omega
    · right; omega
  · right
    have h1 : (r' + 1) * B ≤ r * B := Nat.mul_le_mul_right B hrr
    have h2 : r' * B + B = (r' + 1) * B := by ring
    omega

/-- A write in a band is disjoint from any point of the same row structure
lying in a separate band. -/
theorem inBand_point_disjoint {B nc lo hi : Nat} {w : Nat × List Nat}
    (h : InBand B nc lo hi w) (hhi : hi ≤ B) {r0 t0 : Nat} (ht0 : t0 < B)
    (hsep : hi ≤ t0 ∨ t0 < lo) :
    r0 * B + t0 < w.1 ∨ w.1 + w.2.length ≤ r0 * B + t0 := by
  obtain ⟨r, d, hr, haddr, hd1, hd2⟩ := h
  rcases Nat.lt_trichotomy r r0 with hrr | hrr | hrr
  · right
    have h1 : (r + 1) * B ≤ r0 * B := Nat.mul_le_mul_right B hrr
    have h2 : r * B + B = (r + 1) * B := by ring
    omega
  · subst hrr
    rcases hsep with hs | hs
    · right; omega
    · left; omega
  · left
    have h1 : (r0 + 1) * B ≤ r * B := Nat.mul_le_mul_right B hrr
    have h2 : r0 * B + B = (r0 + 1) * B := by ring
    omega

/-- Two writes of the same plane (same band, element size `b`, base `o`) at
distinct logical indices `j ≠ j'` have disjoint regions. -/
theorem same_plane_disjoint {B nc b o m : Nat} (hnc : 1 ≤ nc)
    (hband : o + m * b ≤ B) {j j' : Nat} (hj : j < m * nc) (hj' : j' < m * nc)
    (hne : j ≠ j') :
    (j % nc) * B + b * (j / nc) + o + b ≤ (j' % nc) * B + b * (j' / nc) + o ∨
      (j' % nc) * B + b * (j' / nc) + o + b ≤ (j % nc) * B + b * (j / nc) + o := by
  have hdiv : j / nc < m := (Nat.div_lt_iff_lt_mul (by omega)).mpr (by omega)
  have hdiv' : j' / nc < m := (Nat.div_lt_iff_lt_mul (by omega)).mpr (by omega)
  have hmod : j % nc < nc := Nat.mod_lt j (by omega)
  have hmod' : j' % nc < nc := Nat.mod_lt j' (by omega)
  rcases Nat.lt_trichotomy (j % nc) (j' % nc) with hrr | hrr | hrr
  · left
    have h1 : (j % nc + 1) * B ≤ (j' % nc) * B := Nat.mul_le_mul_right B hrr
    have h2 : (j % nc) * B + B = (j % nc + 1) * B := by ring
    have h3 : b * (j / nc) + b = b * (j / nc + 1) := by ring
    have h4 : b * (j / nc + 1) ≤ b * m := Nat.mul_le_mul_left b hdiv
    have h5 : b * m = m * b := Nat.mul_comm b m
    omega
  · have hdd : j / nc ≠ j' / nc := by
      intro heq
      apply hne
      have e1 := Nat.div_add_mod j nc
      have e2 := Nat.div_add_mod j' nc
      rw [heq, hrr] at e1
      omega
    have hBeq : (j % nc) * B = (j' % nc) * B := by rw [hrr]
    rcases Nat.lt_or_ge (j / nc) (j' / nc) with hlt | hge
    · left
      have h3 : b * (j / nc) + b = b * (j / nc + 1) := by ring
      have h4 : b * (j / nc + 1) ≤ b * (j' / nc) := Nat.mul_le_mul_left b hlt
      omega
    · right
      have hlt' : j' / nc < j / nc := by omega
      have h3 : b * (j' / nc) + b = b * (j' / nc + 1) := by ring
      have h4 : b * (j' / nc + 1) ≤ b * (j / nc) := Nat.mul_le_mul_left b hlt'
      omega
  · right
    have h1 : (j' % nc + 1) * B ≤ (j % nc) * B := Nat.mul_le_mul_right B hrr
    have h2 : (j' % nc) * B + B = (j' % nc + 1) * B := by ring
    have h3 : b * (j' / nc) + b = b * (j' / nc + 1) := by ring
    have h4 : b * (j' / nc + 1) ≤ b * m := Nat.mul_le_mul_left b hdiv'
    have h5 : b * m = m * b := Nat.mul_comm b m
    omega

theorem bitWrites_eq_map {α : Type} (enc : α → List Nat) (bo off bs B nc : Nat) :
    ∀ (lst : List α) (i0 : Nat),
      bitWrites enc bo off bs B nc i0 lst =
        (List.range lst.length).map (fun k =>
          (((i0 + k + off) % nc) * B + bs * ((i0 + k + off) / nc) + bo,
            (lst.map enc).getD k [])) := by
  intro lst
  induction lst with
  | nil => intro i0; rfl
  | cons v rest ih =>
    intro i0
    simp only [bitWrites, List.length_cons, List.range_succ_eq_map, List.map_cons,
      List.map_map]
    rw [ih (i0 + 1)]
    refine List.cons_eq_cons.mpr ⟨?_, ?_⟩
    · simp
    · apply List.map_congr_left
      intro a ha
      have h1 : i0 + 1 + a = i0 + (a + 1) := by omega
      simp only [Function.comp_apply, Nat.succ_eq_add_one, List.getD_cons_succ, h1]

theorem offsetWrites_eq_map {α : Type} (bo off B nc : Nat) :
    ∀ (lst : List α) (i0 : Nat),
      offsetWrites bo off B nc i0 lst =
        (List.range lst.length).map (fun k =>
          (((i0 + k + off) % nc) * B + (i0 + k + off) / nc + bo, [1])) := by
  intro lst
  induction lst with
  | nil => intro i0; rfl
  | cons v rest ih =>
    intro i0
    simp only [offsetWrites, List.length_cons, List.range_succ_eq_map, List.map_cons,
      List.map_map]
    rw [ih (i0 + 1)]
    refine List.cons_eq_cons.mpr ⟨?_, ?_⟩
    · simp
    · apply List.map_congr_left
      intro a ha
      have h1 : i0 + 1 + a = i0 + (a + 1) := by omega
      simp only [Function.comp_apply, Nat.succ_eq_add_one, h1]

theorem columnWrites_eq (col : CommittableColumn) (cbts bto off B nc : Nat) :
    columnWrites col cbts bto (get_byte_size col) off B nc =
      (List.range col.len).map (fun k =>
        (((k + off) % nc) * B + get_byte_size col * ((k + off) / nc) + cbts / 8,
          col.encBytes.getD k []))
      ++ (if col.writesOffsetPlane then
            (List.range col.len).map (fun k =>
              (((k + off) % nc) * B + (k + off) / nc + bto / 8, [1]))
          else []) := by
  cases col <;>
    simp only [columnWrites, CommittableColumn.len, CommittableColumn.encBytes,
      CommittableColumn.writesOffsetPlane, get_byte_size, if_true, if_false,
      Bool.false_eq_true, List.append_nil, bitWrites_eq_map, offsetWrites_eq_map,
      Nat.zero_add]

theorem columnsWrites_append (BT : List Nat) (ss n off B nc : Nat) :
    ∀ (l1 l2 : List CommittableColumn) (i : Nat),
      columnsWrites BT ss n off B nc i (l1 ++ l2) =
        columnsWrites BT ss n off B nc i l1 ++
          columnsWrites BT ss n off B nc (i + l1.length) l2 := by
  intro l1
  induction l1 with
  | nil => intro l2 i; simp [columnsWrites]
  | cons col rest ih =>
    intro l2 i
    simp only [List.cons_append, columnsWrites, List.length_cons, List.append_eq]
    rw [ih l2 (i + 1), List.append_assoc]
    have h1 : i + 1 + rest.length = i + (rest.length + 1) := by omega
    rw [h1]

/-- Resolution of the running data-plane prefix of column `c` to bytes. -/
theorem current_bit_table_sum_div (cols : List CommittableColumn) (m : Nat) (c : Nat)
    (hc : c < cols.length) :
    (if 0 < c then (((extended_bit_table cols m).take (c * m)).sum) else 0) / 8 =
      m * cols_byte_take cols c := by
  cases Nat.eq_zero_or_pos c with
  | inl h0 =>
    subst h0
    simp [cols_byte_take_zero]
  | inr hpos =>
    rw [if_pos hpos]
    have h := extended_bit_table_take_sum cols m c hc 0 (Nat.zero_le m)
    simp only [Nat.add_zero, Nat.zero_mul] at h
    rw [h]
    omega

/-- Resolution of the offset-plane prefix of column `c` to bytes. -/
theorem bit_table_offset_sum_div (cols : List CommittableColumn) (m : Nat) (c : Nat) :
    ((get_repeated_bit_table (get_output_bit_table cols) m).sum + c * 8 * m) / 8 =
      m * cols_byte_sum cols + c * m := by
  rw [repeated_bit_table_sum, output_bit_table_sum]
  have h : m * (8 * cols_byte_sum cols) + c * 8 * m =
      8 * (m * cols_byte_sum cols + c * m) := by ring
  rw [h]
  omega

/-- Every write of the packing sequence for the column suffix starting at
index `i` comes from some column `c ≥ i` and is a data-plane write or (for
signed variants) an offset-plane write of one of its elements. -/
theorem mem_columnsWrites (cols : List CommittableColumn) (m off nc : Nat) :
    ∀ (i : Nat) (w : Nat × List Nat),
      w ∈ columnsWrites (extended_bit_table cols m)
          (get_repeated_bit_table (get_output_bit_table cols) m).sum m off
          (row_byte_width cols m) nc i (cols.drop i) →
      ∃ (c : Nat) (hc : c < cols.length), i ≤ c ∧
        ((∃ k, k < (cols.get ⟨c, hc⟩).len ∧
            w = (((k + off) % nc) * row_byte_width cols m +
                  get_byte_size (cols.get ⟨c, hc⟩) * ((k + off) / nc) +
                  m * cols_byte_take cols c,
                (cols.get ⟨c, hc⟩).encBytes.getD k [])) ∨
          ((cols.get ⟨c, hc⟩).writesOffsetPlane = true ∧
            ∃ k, k < (cols.get ⟨c, hc⟩).len ∧
            w = (((k + off) % nc) * row_byte_width cols m + (k + off) / nc +
                  (m * cols_byte_sum cols + c * m), [1]))) := by
  have key : ∀ (f i : Nat), cols.length - i ≤ f → ∀ (w : Nat × List Nat),
      w ∈ columnsWrites (extended_bit_table cols m)
          (get_repeated_bit_table (get_output_bit_table cols) m).sum m off
          (row_byte_width cols m) nc i (cols.drop i) →
      ∃ (c : Nat) (hc : c < cols.length), i ≤ c ∧
        ((∃ k, k < (cols.get ⟨c, hc⟩).len ∧
            w = (((k + off) % nc) * row_byte_width cols m +
                  get_byte_size (cols.get ⟨c, hc⟩) * ((k + off) / nc) +
                  m * cols_byte_take cols c,
                (cols.get ⟨c, hc⟩).encBytes.getD k [])) ∨
          ((cols.get ⟨c, hc⟩).writesOffsetPlane = true ∧
            ∃ k, k < (cols.get ⟨c, hc⟩).len ∧
            w = (((k + off) % nc) * row_byte_width cols m + (k + off) / nc +
                  (m * cols_byte_sum cols + c * m), [1]))) := by
    intro f
    induction f with
    | zero =>
      intro i hle w hw
      have hdrop : cols.drop i = [] := List.drop_eq_nil_of_le (by omega)
      rw [hdrop] at hw
      simp [columnsWrites] at hw
    | succ f ihf =>
      intro i hle w hw
      by_cases hi : i < cols.length
      · have hdrop : cols.drop i = cols.get ⟨i, hi⟩ :: cols.drop (i + 1) := by
          rw [List.drop_eq_getElem_cons hi]
          rfl
        rw [hdrop] at hw
        simp only [columnsWrites] at hw
        rcases List.mem_append.mp hw with hw1 | hw2
        · refine ⟨i, hi, Nat.le_refl i, ?_⟩
          rw [columnWrites_eq] at hw1
          rcases List.mem_append.mp hw1 with hd | ho
          · left
            obtain ⟨k, hk, hwk⟩ := List.mem_map.mp hd
            refine ⟨k, by simpa using hk, ?_⟩
            rw [← hwk, current_bit_table_sum_div cols m i hi]
          · right
            cases hsign : (cols.get ⟨i, hi⟩).writesOffsetPlane with
            | false => rw [hsign] at ho; simp at ho
            | true =>
              rw [hsign] at ho
              simp only [if_true] at ho
              refine ⟨rfl, ?_⟩
              obtain ⟨k, hk, hwk⟩ := List.mem_map.mp ho
              refine ⟨k, by simpa using hk, ?_⟩
              rw [← hwk, bit_table_offset_sum_div cols m i]
        · obtain ⟨c, hc, hic, hrest⟩ := ihf (i + 1) (by omega) w hw2
          exact ⟨c, hc, by omega, hrest⟩
      · have hdrop : cols.drop i = [] := List.drop_eq_nil_of_le (by omega)
        rw [hdrop] at hw
        simp [columnsWrites] at hw
  intro i w hw
  exact key (cols.length - i) i (Nat.le_refl _) w hw

theorem getD_map_length {α : Type} (f : α → List Nat) (c : List α) (k : Nat)
    (hk : k < c.length) (L : Nat) (hf : ∀ v, (f v).length = L) :
    ((c.map f).getD k []).length = L := by
  rw [List.getD_eq_getElem?_getD, List.getElem?_map, List.getElem?_eq_getElem hk]
  simp [hf]

theorem encBytes_getD_length (col : CommittableColumn) (k : Nat) (hk : k < col.len) :
    (col.encBytes.getD k []).length = get_byte_size col := by
  cases col with
  | SmallInt c => exact getD_map_length _ c k hk 2 i16_offset_to_bytes_length
  | Int c => exact getD_map_length _ c k hk 4 i32_offset_to_bytes_length
  | BigInt c => exact getD_map_length _ c k hk 8 i64_offset_to_bytes_length
  | Int128 c => exact getD_map_length _ c k hk 16 i128_offset_to_bytes_length
  | Decimal75 p s c => exact getD_map_length _ c k hk 32 u64x4_offset_to_bytes_length
  | Scalar c => exact getD_map_length _ c k hk 32 u64x4_offset_to_bytes_length
  | VarChar c => exact getD_map_length _ c k hk 32 u64x4_offset_to_bytes_length
  | Boolean c => exact getD_map_length _ c k hk 1 bool_offset_to_bytes_length
  | TimestampTZ u z c => exact getD_map_length _ c k hk 8 i64_offset_to_bytes_length

theorem data_band_le (cols : List CommittableColumn) (m c : Nat) (hc : c < cols.length) :
    m * cols_byte_take cols c + m * get_byte_size (cols.get ⟨c, hc⟩) ≤
      row_byte_width cols m := by
  have h1 := cols_byte_take_succ cols c hc
  have h2 := cols_byte_take_le cols (c + 1)
  unfold row_byte_width
  have h3 : m * cols_byte_take cols c + m * get_byte_size (cols.get ⟨c, hc⟩) =
      m * cols_byte_take cols (c + 1) := by rw [h1]; ring
  have h4 : m * cols_byte_take cols (c + 1) ≤ m * cols_byte_sum cols :=
    Nat.mul_le_mul_left m h2
  omega

theorem offset_band_le (cols : List CommittableColumn) (m c : Nat)
    (hc : c < cols.length) :
    m * cols_byte_sum cols + c * m + m ≤ row_byte_width cols m := by
  unfold row_byte_width
  have h1 : c * m + m = (c + 1) * m := by ring
  have h2 : (c + 1) * m ≤ cols.length * m := Nat.mul_le_mul_right m hc
  have h3 : cols.length * m = m * cols.length := Nat.mul_comm _ _
  omega

theorem data_write_inBand (cols : List CommittableColumn) (m off nc c k : Nat)
    (hc : c < cols.length) (hnc : 1 ≤ nc) (hk : k < (cols.get ⟨c, hc⟩).len)
    (hcl : (cols.get ⟨c, hc⟩).len + off ≤ m * nc) :
    InBand (row_byte_width cols m) nc (m * cols_byte_take cols c)
      (m * cols_byte_take cols c + m * get_byte_size (cols.get ⟨c, hc⟩))
      (((k + off) % nc) * row_byte_width cols m +
          get_byte_size (cols.get ⟨c, hc⟩) * ((k + off) / nc) + m * cols_byte_take cols c,
        (cols.get ⟨c, hc⟩).encBytes.getD k []) := by
  refine ⟨(k + off) % nc,
    get_byte_size (cols.get ⟨c, hc⟩) * ((k + off) / nc) + m * cols_byte_take cols c,
    Nat.mod_lt _ (by omega), by ring, by omega, ?_⟩
  have hdiv : (k + off) / nc < m := (Nat.div_lt_iff_lt_mul (by omega)).mpr (by omega)
  have hlen := encBytes_getD_length (cols.get ⟨c, hc⟩) k hk
  simp only [hlen]
  have h1 : get_byte_size (cols.get ⟨c, hc⟩) * ((k + off) / nc) +
      get_byte_size (cols.get ⟨c, hc⟩) =
      get_byte_size (cols.get ⟨c, hc⟩) * ((k + off) / nc + 1) := by ring
  have h2 : get_byte_size (cols.get ⟨c, hc⟩) * ((k + off) / nc + 1) ≤
      get_byte_size (cols.get ⟨c, hc⟩) * m := Nat.mul_le_mul_left _ hdiv
  have h3 : get_byte_size (cols.get ⟨c, hc⟩) * m = m * get_byte_size (cols.get ⟨c, hc⟩) :=
    Nat.mul_comm _ _
  omega

theorem offset_write_inBand (cols : List CommittableColumn) (m off nc c k : Nat)
    (hc : c < cols.length) (hnc : 1 ≤ nc) (hk : k < (cols.get ⟨c, hc⟩).len)
    (hcl : (cols.get ⟨c, hc⟩).len + off ≤ m * nc) :
    InBand (row_byte_width cols m) nc (m * cols_byte_sum cols + c * m)
      (m * cols_byte_sum cols + c * m + m)
      (((k + off) % nc) * row_byte_width cols m + (k + off) / nc +
          (m * cols_byte_sum cols + c * m), [1]) := by
  refine ⟨(k + off) % nc, (k + off) / nc + (m * cols_byte_sum cols + c * m),
    Nat.mod_lt _ (by omega), by ring, Nat.le_add_left _ _, ?_⟩
  have hdiv : (k + off) / nc < m := (Nat.div_lt_iff_lt_mul (by omega)).mpr (by omega)
  simp only [List.length_cons, List.length_nil]
  omega

theorem packWrites_getD_read_of_decomp {ws : List (Nat × List Nat)} {a : Nat}
    {src buf b' : List Nat} {t : Nat} (h : packWrites ws buf = some b')
    (hdec : ∃ ws1 ws2, ws = ws1 ++ (a, src) :: ws2 ∧
      ∀ w ∈ ws2, a + src.length ≤ w.1 ∨ w.1 + w.2.length ≤ a)
    (ht : t < src.length) : b'.getD (a + t) 0 = src.getD t 0 := by
  obtain ⟨ws1, ws2, hws, hdisj⟩ := hdec
  rw [hws] at h
  exact packWrites_getD_read h hdisj ht

theorem mem_drop_map_range {γ : Type} (f : Nat → γ) (n d : Nat) (w : γ)
    (hw : w ∈ ((List.range n).map f).drop d) : ∃ j, d ≤ j ∧ j < n ∧ w = f j := by
  obtain ⟨j, hj, hwj⟩ := List.mem_iff_getElem.mp hw
  have hjlt : d + j < n := by
    have := hj
    simp [List.length_drop, List.length_map, List.length_range] at this
    omega
  refine ⟨d + j, Nat.le_add_right d j, hjlt, ?_⟩
  rw [List.getElem_drop] at hwj
  rw [← hwj]
  rw [List.getElem_map]
  congr 1
  exact List.getElem_range _ _

theorem columnsWrites_decompose (BT : List Nat) (ss n off B nc : Nat)
    (cols : List CommittableColumn) (c : Nat) (hc : c < cols.length) :
    columnsWrites BT ss n off B nc 0 cols =
      columnsWrites BT ss n off B nc 0 (cols.take c) ++
        (columnWrites (cols.get ⟨c, hc⟩)
            (if 0 < c then ((BT.take (c * n)).sum) else 0) (ss + c * 8 * n)
            (get_byte_size (cols.get ⟨c, hc⟩)) off B nc ++
          columnsWrites BT ss n off B nc (c + 1) (cols.drop (c + 1))) := by
  conv_lhs => rw [← List.take_append_drop c cols, List.drop_eq_getElem_cons hc]
  rw [columnsWrites_append]
  have hlen : (cols.take c).length = c := by rw [List.length_take]; omega
  rw [hlen]
  simp only [columnsWrites, Nat.zero_add]
  rfl

theorem columnsWrites_bounded (cols : List CommittableColumn) (off nc m : Nat)
    (hnc : 1 ≤ nc) (hlen : ∀ col ∈ cols, col.len + off ≤ m * nc) :
    ∀ w ∈ columnsWrites (extended_bit_table cols m)
        (get_repeated_bit_table (get_output_bit_table cols) m).sum m off
        (row_byte_width cols m) nc 0 cols,
      w.1 + w.2.length ≤ row_byte_width cols m * nc := by
  intro w hw
  obtain ⟨c, hc, _, hcase⟩ := mem_columnsWrites cols m off nc 0 w hw
  have hmem : cols.get ⟨c, hc⟩ ∈ cols := List.get_mem cols c hc
  have hcl : (cols.get ⟨c, hc⟩).len + off ≤ m * nc := hlen _ hmem
  rcases hcase with ⟨k, hk, hwk⟩ | ⟨hsign, k, hk, hwk⟩
  · subst hwk
    exact inBand_bound (data_write_inBand cols m off nc c k hc hnc hk hcl)
      (data_band_le cols m c hc)
  · subst hwk
    exact inBand_bound (offset_write_inBand cols m off nc c k hc hnc hk hcl)
      (offset_band_le cols m c hc)

theorem getD_replicate_zero (N q : Nat) : (List.replicate N 0).getD q 0 = 0 := by
  rw [List.getD_eq_getElem?_getD, List.getElem?_replicate]
  split <;> rfl

/-- Read-back of a data-plane byte: after a successful pack with a sufficient
sub-commit count, the encoded bytes of element `k` of column `c` sit at the
row/shard/prefix address computed by `pack_bit`. -/
theorem packed_read_data (cols : List CommittableColumn) (off nc m : Nat)
    (hnc : 1 ≤ nc) (hlen : ∀ col ∈ cols, col.len + off ≤ m * nc)
    {buf : List Nat}
    (hbuf : packWrites
        (columnsWrites (extended_bit_table cols m)
          (get_repeated_bit_table (get_output_bit_table cols) m).sum m off
          (row_byte_width cols m) nc 0 cols)
        (List.replicate (row_byte_width cols m * nc) 0) = some buf)
    (c : Nat) (hc : c < cols.length) (k : Nat) (hk : k < (cols.get ⟨c, hc⟩).len)
    (t : Nat) (ht : t < get_byte_size (cols.get ⟨c, hc⟩)) :
    buf.getD (((k + off) % nc) * row_byte_width cols m +
        get_byte_size (cols.get ⟨c, hc⟩) * ((k + off) / nc) +
        m * cols_byte_take cols c + t) 0 =
      ((cols.get ⟨c, hc⟩).encBytes.getD k []).getD t 0 := by
  have hcl : (cols.get ⟨c, hc⟩).len + off ≤ m * nc := hlen _ (List.get_mem cols c hc)
  have hbs := encBytes_getD_length (cols.get ⟨c, hc⟩) k hk
  rw [columnsWrites_decompose _ _ _ _ _ _ cols c hc, columnWrites_eq] at hbuf
  simp only [current_bit_table_sum_div cols m c hc, bit_table_offset_sum_div cols m c]
    at hbuf
  apply packWrites_getD_read_of_decomp hbuf
  · -- decomposition with later-writes disjoint
    have hklen : k < ((List.range (cols.get ⟨c, hc⟩).len).map (fun k0 =>
        (((k0 + off) % nc) * row_byte_width cols m +
            get_byte_size (cols.get ⟨c, hc⟩) * ((k0 + off) / nc) +
            m * cols_byte_take cols c,
          (cols.get ⟨c, hc⟩).encBytes.getD k0 []))).length := by
      simpa using hk
    refine ⟨columnsWrites (extended_bit_table cols m)
        (get_repeated_bit_table (get_output_bit_table cols) m).sum m off
        (row_byte_width cols m) nc 0 (cols.take c) ++
        ((List.range (cols.get ⟨c, hc⟩).len).map (fun k0 =>
          (((k0 + off) % nc) * row_byte_width cols m +
              get_byte_size (cols.get ⟨c, hc⟩) * ((k0 + off) / nc) +
              m * cols_byte_take cols c,
            (cols.get ⟨c, hc⟩).encBytes.getD k0 []))).take k,
      ((List.range (cols.get ⟨c, hc⟩).len).map (fun k0 =>
          (((k0 + off) % nc) * row_byte_width cols m +
              get_byte_size (cols.get ⟨c, hc⟩) * ((k0 + off) / nc) +
              m * cols_byte_take cols c,
            (cols.get ⟨c, hc⟩).encBytes.getD k0 []))).drop (k + 1) ++
        ((if (cols.get ⟨c, hc⟩).writesOffsetPlane then
            (List.range (cols.get ⟨c, hc⟩).len).map (fun k0 =>
              (((k0 + off) % nc) * row_byte_width cols m + (k0 + off) / nc +
                  (m * cols_byte_sum cols + c * m), [1]))
          else []) ++
          columnsWrites (extended_bit_table cols m)
            (get_repeated_bit_table (get_output_bit_table cols) m).sum m off
            (row_byte_width cols m) nc (c + 1) (cols.drop (c + 1))),
      ?_, ?_⟩
    · -- the list equality
      conv_lhs =>
        rw [← List.take_append_drop k ((List.range (cols.get ⟨c, hc⟩).len).map (fun k0 =>
          (((k0 + off) % nc) * row_byte_width cols m +
              get_byte_size (cols.get ⟨c, hc⟩) * ((k0 + off) / nc) +
              m * cols_byte_take cols c,
            (cols.get ⟨c, hc⟩).encBytes.getD k0 []))),
          List.drop_eq_getElem_cons hklen]
      rw [List.getElem_map, List.getElem_range]
      simp only [List.append_assoc, List.cons_append]
    · -- later writes are disjoint from the target region
      intro w' hw'
      rcases List.mem_append.mp hw' with hwd | hw2
      · -- later element of the same data plane
        obtain ⟨j, hj1, hj2, hwj⟩ := mem_drop_map_range _ _ _ _ hwd
        subst hwj
        simp only [hbs, encBytes_getD_length (cols.get ⟨c, hc⟩) j hj2]
        exact same_plane_disjoint hnc (data_band_le cols m c hc) (by omega) (by omega)
          (by omega)
      rcases List.mem_append.mp hw2 with hwo | hws
      · -- offset-plane write of the same column
        cases hsign : (cols.get ⟨c, hc⟩).writesOffsetPlane with
        | false => rw [hsign] at hwo; simp at hwo
        | true =>
          rw [hsign] at hwo
          simp only [if_true] at hwo
          obtain ⟨j, hj, hwj⟩ := List.mem_map.mp hwo
          have hj2 : j < (cols.get ⟨c, hc⟩).len := by simpa using hj
          subst hwj
          have hband : m * cols_byte_take cols c +
              m * get_byte_size (cols.get ⟨c, hc⟩) ≤
              m * cols_byte_sum cols + c * m := by
            have h1 := cols_byte_take_succ cols c hc
            have h2 := cols_byte_take_le cols (c + 1)
            have h3 : m * cols_byte_take cols (c + 1) ≤ m * cols_byte_sum cols :=
              Nat.mul_le_mul_left m h2
            have h4 : m * cols_byte_take cols c + m * get_byte_size (cols.get ⟨c, hc⟩) =
                m * cols_byte_take cols (c + 1) := by rw [h1]; ring
            omega
          have hdisj := inBand_disjoint
            (data_write_inBand cols m off nc c k hc hnc hk hcl)
            (offset_write_inBand cols m off nc c j hc hnc hj2 hcl)
            (Or.inl hband) (data_band_le cols m c hc) (offset_band_le cols m c hc)
          exact hdisj
      · -- writes of later columns
        obtain ⟨c', hc', hcc', hcase⟩ := mem_columnsWrites cols m off nc (c + 1) w' hws
        have hcl' : (cols.get ⟨c', hc'⟩).len + off ≤ m * nc :=
          hlen _ (List.get_mem cols c' hc')
        have htake : m * cols_byte_take cols c + m * get_byte_size (cols.get ⟨c, hc⟩) ≤
            m * cols_byte_take cols c' := by
          have h1 := cols_byte_take_succ cols c hc
          have h2 := cols_byte_take_mono cols hcc'
          have h3 : m * cols_byte_take cols (c + 1) ≤ m * cols_byte_take cols c' :=
            Nat.mul_le_mul_left m h2
          have h4 : m * cols_byte_take cols c + m * get_byte_size (cols.get ⟨c, hc⟩) =
              m * cols_byte_take cols (c + 1) := by rw [h1]; ring
          omega
        rcases hcase with ⟨j, hj, hwj⟩ | ⟨hsign', j, hj, hwj⟩
        · subst hwj
          exact inBand_disjoint
            (data_write_inBand cols m off nc c k hc hnc hk hcl)
            (data_write_inBand cols m off nc c' j hc' hnc hj hcl')
            (Or.inl htake) (data_band_le cols m c hc) (data_band_le cols m c' hc')
        · subst hwj
          have hband : m * cols_byte_take cols c +
              m * get_byte_size (cols.get ⟨c, hc⟩) ≤
              m * cols_byte_sum cols + c' * m := by
            have h2 := cols_byte_take_le cols c'
            have h3 : m * cols_byte_take cols c' ≤ m * cols_byte_sum cols :=
              Nat.mul_le_mul_left m h2
            omega
          exact inBand_disjoint
            (data_write_inBand cols m off nc c k hc hnc hk hcl)
            (offset_write_inBand cols m off nc c' j hc' hnc hj hcl')
            (Or.inl hband) (data_band_le cols m c hc) (offset_band_le cols m c' hc')
  · rw [hbs]
    exact ht

/-- Read-back of an offset-plane byte: for a signed-variant column the
constant `1` sits at the row/shard slot of every existing element. -/
theorem packed_read_offset (cols : List CommittableColumn) (off nc m : Nat)
    (hnc : 1 ≤ nc) (hlen : ∀ col ∈ cols, col.len + off ≤ m * nc)
    {buf : List Nat}
    (hbuf : packWrites
        (columnsWrites (extended_bit_table cols m)
          (get_repeated_bit_table (get_output_bit_table cols) m).sum m off
          (row_byte_width cols m) nc 0 cols)
        (List.replicate (row_byte_width cols m * nc) 0) = some buf)
    (c : Nat) (hc : c < cols.length)
    (hsign : (cols.get ⟨c, hc⟩).writesOffsetPlane = true)
    (k : Nat) (hk : k < (cols.get ⟨c, hc⟩).len) :
    buf.getD (((k + off) % nc) * row_byte_width cols m + (k + off) / nc +
        (m * cols_byte_sum cols + c * m)) 0 = 1 := by
  have hcl : (cols.get ⟨c, hc⟩).len + off ≤ m * nc := hlen _ (List.get_mem cols c hc)
  rw [columnsWrites_decompose _ _ _ _ _ _ cols c hc, columnWrites_eq] at hbuf
  simp only [current_bit_table_sum_div cols m c hc, bit_table_offset_sum_div cols m c,
    hsign, if_true] at hbuf
  show buf.getD ((((k + off) % nc) * row_byte_width cols m + (k + off) / nc +
      (m * cols_byte_sum cols + c * m)) + 0) 0 = ([1] : List Nat).getD 0 0
  refine packWrites_getD_read_of_decomp hbuf ?_ (by simp)
  · have hklen : k < ((List.range (cols.get ⟨c, hc⟩).len).map (fun k0 =>
        (((k0 + off) % nc) * row_byte_width cols m + (k0 + off) / nc +
            (m * cols_byte_sum cols + c * m), ([1] : List Nat)))).length := by
      simpa using hk
    refine ⟨columnsWrites (extended_bit_table cols m)
        (get_repeated_bit_table (get_output_bit_table cols) m).sum m off
        (row_byte_width cols m) nc 0 (cols.take c) ++
        ((List.range (cols.get ⟨c, hc⟩).len).map (fun k0 =>
          (((k0 + off) % nc) * row_byte_width cols m +
              get_byte_size (cols.get ⟨c, hc⟩) * ((k0 + off) / nc) +
              m * cols_byte_take cols c,
            (cols.get ⟨c, hc⟩).encBytes.getD k0 [])) ++
          ((List.range (cols.get ⟨c, hc⟩).len).map (fun k0 =>
            (((k0 + off) % nc) * row_byte_width cols m + (k0 + off) / nc +
                (m * cols_byte_sum cols + c * m), ([1] : List Nat)))).take k),
      ((List.range (cols.get ⟨c, hc⟩).len).map (fun k0 =>
          (((k0 + off) % nc) * row_byte_width cols m + (k0 + off) / nc +
              (m * cols_byte_sum cols + c * m), ([1] : List Nat)))).drop (k + 1) ++
        columnsWrites (extended_bit_table cols m)
          (get_repeated_bit_table (get_output_bit_table cols) m).sum m off
          (row_byte_width cols m) nc (c + 1) (cols.drop (c + 1)),
      ?_, ?_⟩
    · conv_lhs =>
        rw [← List.take_append_drop k ((List.range (cols.get ⟨c, hc⟩).len).map (fun k0 =>
            (((k0 + off) % nc) * row_byte_width cols m + (k0 + off) / nc +
                (m * cols_byte_sum cols + c * m), ([1] : List Nat)))),
          List.drop_eq_getElem_cons hklen]
      rw [List.getElem_map, List.getElem_range]
      simp only [List.append_assoc, List.cons_append]
    · intro w' hw'
      rcases List.mem_append.mp hw' with hwo | hws
      · obtain ⟨j, hj1, hj2, hwj⟩ := mem_drop_map_range _ _ _ _ hwo
        subst hwj
        have hband : m * cols_byte_sum cols + c * m + m * 1 ≤ row_byte_width cols m := by
          have := offset_band_le cols m c hc
          omega
        have h := @same_plane_disjoint (row_byte_width cols m) nc 1
          (m * cols_byte_sum cols + c * m) m hnc hband (k + off) (j + off)
          (by omega) (by omega) (by omega)
        simp only [Nat.one_mul] at h
        simpa using h
      · obtain ⟨c', hc', hcc', hcase⟩ := mem_columnsWrites cols m off nc (c + 1) w' hws
        have hcl' : (cols.get ⟨c', hc'⟩).len + off ≤ m * nc :=
          hlen _ (List.get_mem cols c' hc')
        rcases hcase with ⟨j, hj, hwj⟩ | ⟨hsign', j, hj, hwj⟩
        · subst hwj
          have hsep : m * cols_byte_take cols c' +
              m * get_byte_size (cols.get ⟨c', hc'⟩) ≤
              m * cols_byte_sum cols + c * m := by
            have h1 := cols_byte_take_succ cols c' hc'
            have h2 := cols_byte_take_le cols (c' + 1)
            have h3 : m * cols_byte_take cols (c' + 1) ≤ m * cols_byte_sum cols :=
              Nat.mul_le_mul_left m h2
            have h4 : m * cols_byte_take cols c' +
                m * get_byte_size (cols.get ⟨c', hc'⟩) =
                m * cols_byte_take cols (c' + 1) := by rw [h1]; ring
            omega
          exact inBand_disjoint
            (offset_write_inBand cols m off nc c k hc hnc hk hcl)
            (data_write_inBand cols m off nc c' j hc' hnc hj hcl')
            (Or.inr hsep) (offset_band_le cols m c hc) (data_band_le cols m c' hc')
        · subst hwj
          have hsep : m * cols_byte_sum cols + c * m + m ≤
              m * cols_byte_sum cols + c' * m := by
            have h1 : (c + 1) * m ≤ c' * m := Nat.mul_le_mul_right m hcc'
            have h2 : c * m + m = (c + 1) * m := by ring
            omega
          exact inBand_disjoint
            (offset_write_inBand cols m off nc c k hc hnc hk hcl)
            (offset_write_inBand cols m off nc c' j hc' hnc hj hcl')
            (Or.inl hsep) (offset_band_le cols m c hc) (offset_band_le cols m c' hc')

/-- Offset-plane slots of columns that never run the offset pass stay zero. -/
theorem packed_zero_offset (cols : List CommittableColumn) (off nc m : Nat)
    (hnc : 1 ≤ nc) (hlen : ∀ col ∈ cols, col.len + off ≤ m * nc)
    {buf : List Nat}
    (hbuf : packWrites
        (columnsWrites (extended_bit_table cols m)
          (get_repeated_bit_table (get_output_bit_table cols) m).sum m off
          (row_byte_width cols m) nc 0 cols)
        (List.replicate (row_byte_width cols m * nc) 0) = some buf)
    (c : Nat) (hc : c < cols.length)
    (hsign : (cols.get ⟨c, hc⟩).writesOffsetPlane = false)
    (r s : Nat) (_hr : r < nc) (hs : s < m) :
    buf.getD (r * row_byte_width cols m + (m * cols_byte_sum cols + c * m + s)) 0 = 0 := by
  have ht0 : m * cols_byte_sum cols + c * m + s < row_byte_width cols m := by
    have := offset_band_le cols m c hc
    omega
  have hframe := packWrites_getD_frame hbuf
    (q := r * row_byte_width cols m + (m * cols_byte_sum cols + c * m + s)) ?_
  · rw [hframe, getD_replicate_zero]
  · intro w hw
    obtain ⟨c', hc', _, hcase⟩ := mem_columnsWrites cols m off nc 0 w hw
    have hcl' : (cols.get ⟨c', hc'⟩).len + off ≤ m * nc :=
      hlen _ (List.get_mem cols c' hc')
    rcases hcase with ⟨j, hj, hwj⟩ | ⟨hsign', j, hj, hwj⟩
    · subst hwj
      have hsep : m * cols_byte_take cols c' +
          m * get_byte_size (cols.get ⟨c', hc'⟩) ≤
          m * cols_byte_sum cols + c * m + s := by
        have h1 := cols_byte_take_succ cols c' hc'
        have h2 := cols_byte_take_le cols (c' + 1)
        have h3 : m * cols_byte_take cols (c' + 1) ≤ m * cols_byte_sum cols :=
          Nat.mul_le_mul_left m h2
        have h4 : m * cols_byte_take cols c' +
            m * get_byte_size (cols.get ⟨c', hc'⟩) =
            m * cols_byte_take cols (c' + 1) := by rw [h1]; ring
        omega
      exact inBand_point_disjoint
        (data_write_inBand cols m off nc c' j hc' hnc hj hcl')
        (data_band_le cols m c' hc') ht0 (Or.inl hsep)
    · subst hwj
      have hcne : c' ≠ c := by
        intro heq
        subst heq
        rw [hsign] at hsign'
        exact Bool.false_ne_true hsign'
      rcases Nat.lt_or_ge c' c with hlt | hge
      · have hsep : m * cols_byte_sum cols + c' * m + m ≤
            m * cols_byte_sum cols + c * m + s := by
          have h1 : (c' + 1) * m ≤ c * m := Nat.mul_le_mul_right m hlt
          have h2 : c' * m + m = (c' + 1) * m := by ring
          omega
        exact inBand_point_disjoint
          (offset_write_inBand cols m off nc c' j hc' hnc hj hcl')
          (offset_band_le cols m c' hc') ht0 (Or.inl hsep)
      · have hgt : c < c' := by omega
        have hsep : m * cols_byte_sum cols + c * m + s <
            m * cols_byte_sum cols + c' * m := by
          have h1 : (c + 1) * m ≤ c' * m := Nat.mul_le_mul_right m hgt
          have h2 : c * m + m = (c + 1) * m := by ring
          omega
        exact inBand_point_disjoint
          (offset_write_inBand cols m off nc c' j hc' hnc hj hcl')
          (offset_band_le cols m c' hc') ht0 (Or.inr hsep)

theorem len_le_max : ∀ (cols : List CommittableColumn) (col : CommittableColumn),
    col ∈ cols → col.len ≤ get_max_committable_column_length cols := by
  intro cols
  induction cols with
  | nil => intro col h; simp at h
  | cons c rest ih =>
    intro col h
    rcases List.mem_cons.mp h with rfl | h2
    · simp only [get_max_committable_column_length, List.map_cons, List.foldr_cons]
      exact Nat.le_max_left _ _
    · have hr := ih col h2
      simp only [get_max_committable_column_length, List.map_cons, List.foldr_cons]
      exact le_trans hr (Nat.le_max_right _ _)

/-- The consistent sub-commit count (or anything at least as large) gives
every column room: `len + offset ≤ m * num_columns`. -/
theorem len_le_sub_commits_mul (cols : List CommittableColumn) (off nc : Nat)
    (hnc : 1 ≤ nc) (m : Nat)
    (hm : get_num_of_sub_commits_per_full_commit cols off nc ≤ m) :
    ∀ col ∈ cols, col.len + off ≤ m * nc := by
  intro col hcol
  have hmax := len_le_max cols col hcol
  have hceil : get_max_committable_column_length cols + off ≤
      get_num_of_sub_commits_per_full_commit cols off nc * nc := by
    unfold get_num_of_sub_commits_per_full_commit
    have hdm := Nat.div_add_mod (get_max_committable_column_length cols + off + nc - 1) nc
    have hmod : (get_max_committable_column_length cols + off + nc - 1) % nc < nc :=
      Nat.mod_lt _ (by omega)
    have hmul : nc * ((get_max_committable_column_length cols + off + nc - 1) / nc) =
        ((get_max_committable_column_length cols + off + nc - 1) / nc) * nc :=
      Nat.mul_comm _ _
    omega
  have h2 : get_num_of_sub_commits_per_full_commit cols off nc * nc ≤ m * nc :=
    Nat.mul_le_mul_right nc hm
  omega

/-- Success of the packing: with `num_columns ≥ 1` and room for every column,
the write sequence completes, the function returns the extended bit table and
a buffer of the expected length. -/
theorem packed_msm_success (cols : List CommittableColumn) (off nc m : Nat)
    (hnc : 1 ≤ nc) (hlen : ∀ col ∈ cols, col.len + off ≤ m * nc) :
    ∃ buf,
      packWrites
        (columnsWrites (extended_bit_table cols m)
          (get_repeated_bit_table (get_output_bit_table cols) m).sum m off
          (row_byte_width cols m) nc 0 cols)
        (List.replicate (row_byte_width cols m * nc) 0) = some buf ∧
      get_bit_table_and_scalars_for_packed_msm cols off nc m =
        some (extended_bit_table cols m, buf) ∧
      buf.length = row_byte_width cols m * nc := by
  have hbdd : ∀ w ∈ columnsWrites (extended_bit_table cols m)
      (get_repeated_bit_table (get_output_bit_table cols) m).sum m off
      (row_byte_width cols m) nc 0 cols,
      w.1 + w.2.length ≤ (List.replicate (row_byte_width cols m * nc) (0 : Nat)).length := by
    intro w hw
    rw [List.length_replicate]
    exact columnsWrites_bounded cols off nc m hnc hlen w hw
  obtain ⟨buf, hbuf⟩ := packWrites_some hbdd
  refine ⟨buf, hbuf, ?_, ?_⟩
  · rw [get_bit_table_and_scalars_eq, extended_bit_table_sum_div, hbuf]
    rfl
  · rw [packWrites_length hbuf, List.length_replicate]

theorem fromLEBytes_toLEBytes : ∀ (w n : Nat), n < 2 ^ (8 * w) →
    fromLEBytes (toLEBytes w n) = n := by
  intro w
  induction w with
  | zero => intro n hn; simp [toLEBytes, fromLEBytes]; omega
  | succ w ih =>
    intro n hn
    have hpow : 2 ^ (8 * (w + 1)) = 2 ^ (8 * w) * 256 := by
      have h8 : 8 * (w + 1) = 8 * w + 8 := by ring
      rw [h8, pow_add]
      norm_num
    have hdiv : n / 256 < 2 ^ (8 * w) := by
      rw [Nat.div_lt_iff_lt_mul (by norm_num)]
      omega
    simp only [toLEBytes, fromLEBytes, ih (n / 256) hdiv]
    omega

/-- Core fact about the signed encoders: when the biased value is in range,
the encoded bytes decode to exactly `v - minv`. -/
theorem signed_enc_decode (W : Nat) (v minv : Int) (h0 : 0 ≤ v - minv)
    (h1 : v - minv < 2 ^ (8 * W)) :
    fromLEBytes (toLEBytes W (((v - minv) % 2 ^ (8 * W)).toNat)) = (v - minv).toNat := by
  have hmod : (v - minv) % 2 ^ (8 * W) = v - minv := Int.emod_eq_of_lt h0 h1
  rw [hmod]
  apply fromLEBytes_toLEBytes
  have hcast : ((2 : Int) ^ (8 * W)) = ((2 ^ (8 * W) : Nat) : Int) := by push_cast; ring
  rw [hcast] at h1
  omega

/-- Turn pointwise byte equalities into a slice equality. -/
theorem slice_eq_of_getD (buf src : List Nat) (p L : Nat) (hlen : p + L ≤ buf.length)
    (hsrc : src.length = L) (hpt : ∀ t, t < L → buf.getD (p + t) 0 = src.getD t 0) :
    (buf.drop p).take L = src := by
  apply List.ext_getElem
  · rw [List.length_take, List.length_drop]
    omega
  · intro t h1 h2
    have htL : t < L := by
      rw [List.length_take, List.length_drop] at h1
      omega
    have hq : p + t < buf.length := by omega
    have hg := hpt t htL
    rw [List.getD_eq_getElem?_getD, List.getD_eq_getElem?_getD,
      List.getElem?_eq_getElem hq, List.getElem?_eq_getElem (by omega : t < src.length)]
      at hg
    simp only [Option.getD_some] at hg
    rw [List.getElem_take, List.getElem_drop]
    exact hg

/-!
## Claim theorems: packing half
-/

theorem ceil_le_iff (a nc mm : Nat) (hnc : 1 ≤ nc) :
    (a + nc - 1) / nc ≤ mm ↔ a ≤ nc * mm := by
  rw [← Nat.lt_succ_iff, Nat.div_lt_iff_lt_mul (by omega), Nat.succ_mul]
  have h : mm * nc = nc * mm := Nat.mul_comm mm nc
  omega

theorem flatMap_map_eq {α β γ : Type} (f : α → β) (g : β → List γ) (l : List α) :
    (l.map f).flatMap g = l.flatMap (fun a => g (f a)) := by
  induction l with
  | nil => rfl
  | cons x xs ih => simp [ih]

/-- C6: for every column batch, every offset and every `num_columns ≥ 1`,
`get_num_of_sub_commits_per_full_commit` returns exactly
`ceil((max_column_length + offset) / num_columns)`, where the maximum column
length of an empty batch is `0`: the result equals the ceiling division and is
the least `mm` with `max_column_length + offset ≤ num_columns * mm`. -/
theorem C6_sub_commit_count_is_ceiling (cols : List CommittableColumn) (off nc : Nat)
    (hnc : 1 ≤ nc) :
    get_num_of_sub_commits_per_full_commit cols off nc =
        (get_max_committable_column_length cols + off) ⌈/⌉ nc ∧
      (∀ mm : Nat, get_num_of_sub_commits_per_full_commit cols off nc ≤ mm ↔
        get_max_committable_column_length cols + off ≤ nc * mm) ∧
      get_max_committable_column_length [] = 0 := by
  refine ⟨rfl, ?_, rfl⟩
  intro mm
  exact ceil_le_iff _ nc mm hnc

/-- Witness for C6 at a concrete batch: two columns of lengths 2 and 1,
offset 5, 4 generator columns. -/
theorem C6_sub_commit_count_is_ceiling_witness :
    get_num_of_sub_commits_per_full_commit
        [CommittableColumn.BigInt [1, 2], CommittableColumn.BigInt [3]] 5 4 =
      (get_max_committable_column_length
          [CommittableColumn.BigInt [1, 2], CommittableColumn.BigInt [3]] + 5) ⌈/⌉ 4 :=
  (C6_sub_commit_count_is_ceiling
    [CommittableColumn.BigInt [1, 2], CommittableColumn.BigInt [3]] 5 4 (by decide)).1

/-- C7 counterexample: with batch `[SmallInt [0, 0, 0]]`, offset `0`,
`num_columns = 1` and sub-commit count `1` (the consistent value is `3`),
element index 1 is written at byte range `[2, 4)` of a 3-byte buffer: the
slice write is out of bounds and the Rust code panics (`none` in the
embedding), refuting "completes without crashing for every sub-commit count
value". -/
theorem C7_counterexample :
    get_bit_table_and_scalars_for_packed_msm [CommittableColumn.SmallInt [0, 0, 0]]
      0 1 1 = none := by
  rfl

/-- C7 (amended): `get_bit_table_and_scalars_for_packed_msm` completes without
crashing for every batch, offset and `num_columns ≥ 1` whenever the sub-commit
count is at least the consistent value `ceil((max_len + offset) /
num_columns)`; smaller counts can crash with an out-of-bounds write. -/
theorem C7_amended_no_crash_when_count_sufficient (cols : List CommittableColumn)
    (off nc m : Nat) (hnc : 1 ≤ nc)
    (hm : get_num_of_sub_commits_per_full_commit cols off nc ≤ m) :
    ∃ bt buf,
      get_bit_table_and_scalars_for_packed_msm cols off nc m = some (bt, buf) := by
  obtain ⟨buf, _, hsome, _⟩ := packed_msm_success cols off nc m hnc
    (len_le_sub_commits_mul cols off nc hnc m hm)
  exact ⟨_, buf, hsome⟩

/-- Witness for the amended C7: the counterexample batch with an
over-provisioned count `4` (consistent value `3`) packs without a crash. -/
theorem C7_amended_no_crash_when_count_sufficient_witness :
    ∃ bt buf,
      get_bit_table_and_scalars_for_packed_msm [CommittableColumn.SmallInt [0, 0, 0]]
        0 1 4 = some (bt, buf) :=
  C7_amended_no_crash_when_count_sufficient [CommittableColumn.SmallInt [0, 0, 0]]
    0 1 4 (by decide) (by decide)

/-- C2: whenever `get_bit_table_and_scalars_for_packed_msm` returns, the
extended bit table is, in order, each column's bit width repeated once per
sub-commit (data plane, in batch order) followed by one 8-bit entry per
(column × sub-commit) pair — the offset plane, present for every column
including unsigned ones — for a total of `2 * columns * n` entries. -/
theorem C2_extended_bit_table_shape (cols : List CommittableColumn)
    (off nc nsub : Nat) (bt buf : List Nat)
    (h : get_bit_table_and_scalars_for_packed_msm cols off nc nsub = some (bt, buf)) :
    bt = cols.flatMap (fun col => List.replicate nsub (get_bit_size col)) ++
        List.replicate (cols.length * nsub) 8 ∧
      bt.length = 2 * cols.length * nsub := by
  rw [get_bit_table_and_scalars_eq] at h
  obtain ⟨b, _, hfb⟩ := Option.map_eq_some'.mp h
  have hbt : bt = extended_bit_table cols nsub := by
    have := congrArg Prod.fst hfb
    exact this.symm
  subst hbt
  constructor
  · have h1 : get_repeated_bit_table (get_output_bit_table cols) nsub =
        cols.flatMap (fun col => List.replicate nsub (get_bit_size col)) := by
      unfold get_repeated_bit_table get_output_bit_table
      exact flatMap_map_eq _ _ _
    have h2 : (get_repeated_bit_table (get_output_bit_table cols) nsub).length =
        cols.length * nsub := by
      rw [repeated_bit_table_length]
      simp [get_output_bit_table]
    show get_repeated_bit_table (get_output_bit_table cols) nsub ++
        List.replicate (get_repeated_bit_table (get_output_bit_table cols) nsub).length
          8 = _
    rw [h2, h1]
  · exact extended_bit_table_length cols nsub

/-- Witness for C2 at a concrete batch of two `BigInt` columns. -/
theorem C2_extended_bit_table_shape_witness :
    ([64, 64, 8, 8] : List Nat) =
        [CommittableColumn.BigInt [1, 2], CommittableColumn.BigInt [3, 4]].flatMap
          (fun col => List.replicate 1 (get_bit_size col)) ++
          List.replicate
            ([CommittableColumn.BigInt [1, 2],
              CommittableColumn.BigInt [3, 4]].length * 1) 8 ∧
      ([64, 64, 8, 8] : List Nat).length =
        2 * [CommittableColumn.BigInt [1, 2], CommittableColumn.BigInt [3, 4]].length
          * 1 :=
  C2_extended_bit_table_shape
    [CommittableColumn.BigInt [1, 2], CommittableColumn.BigInt [3, 4]] 0 2 1
    [64, 64, 8, 8]
    [1, 0, 0, 0, 0, 0, 0, 128, 3, 0, 0, 0, 0, 0, 0, 128, 1, 1,
      2, 0, 0, 0, 0, 0, 0, 128, 4, 0, 0, 0, 0, 0, 0, 128, 1, 1] (by rfl)

/-- C5: for `num_columns ≥ 1` and the consistent sub-commit count, the packing
succeeds and the packed buffer has exactly `(Σ extended_bit_table / 8) *
num_columns` bytes; an empty batch yields an empty bit table and an empty
buffer. -/
theorem C5_packed_buffer_length (cols : List CommittableColumn) (off nc : Nat)
    (hnc : 1 ≤ nc) :
    ∃ bt buf,
      get_bit_table_and_scalars_for_packed_msm cols off nc
          (get_num_of_sub_commits_per_full_commit cols off nc) = some (bt, buf) ∧
      buf.length = bt.sum / 8 * nc ∧
      (cols = [] → bt = [] ∧ buf = []) := by
  obtain ⟨buf, _, hsome, hblen⟩ := packed_msm_success cols off nc _ hnc
    (len_le_sub_commits_mul cols off nc hnc _ (Nat.le_refl _))
  refine ⟨_, buf, hsome, ?_, ?_⟩
  · rw [hblen, extended_bit_table_sum_div]
  · intro hnil
    subst hnil
    refine ⟨rfl, ?_⟩
    have hz : buf.length = 0 := by
      rw [hblen]
      simp [row_byte_width, cols_byte_sum]
    exact List.length_eq_zero.mp hz

/-- Witness for C5 at a concrete two-column batch. -/
theorem C5_packed_buffer_length_witness :
    ∃ bt buf,
      get_bit_table_and_scalars_for_packed_msm
          [CommittableColumn.BigInt [1, 2], CommittableColumn.BigInt [3, 4]] 0 2
          (get_num_of_sub_commits_per_full_commit
            [CommittableColumn.BigInt [1, 2], CommittableColumn.BigInt [3, 4]] 0 2) =
        some (bt, buf) ∧
      buf.length = bt.sum / 8 * 2 ∧
      ([CommittableColumn.BigInt [1, 2], CommittableColumn.BigInt [3, 4]] =
          ([] : List CommittableColumn) → bt = [] ∧ buf = []) :=
  C5_packed_buffer_length
    [CommittableColumn.BigInt [1, 2], CommittableColumn.BigInt [3, 4]] 0 2 (by decide)

/-- C1: for every column batch, offset, `num_columns ≥ 1` and the consistent
sub-commit count, the packing succeeds and, for logical element index `k` of
column `c` with `j = k + offset`, the element's encoded bytes appear verbatim
at row `j mod num_columns`, shard `j div num_columns`, at the byte offset
within the row equal to the prefix sum in bytes of all bit-table entries
preceding that column/shard's data slot (slot index `c * n + shard`). -/
theorem C1_packed_msm_addressing (cols : List CommittableColumn) (off nc : Nat)
    (hnc : 1 ≤ nc) :
    ∃ bt buf,
      get_bit_table_and_scalars_for_packed_msm cols off nc
          (get_num_of_sub_commits_per_full_commit cols off nc) = some (bt, buf) ∧
      ∀ (c : Nat) (hc : c < cols.length) (k : Nat), k < (cols.get ⟨c, hc⟩).len →
        ((buf.drop (((k + off) % nc) * (bt.sum / 8) +
            (bt.take (c * get_num_of_sub_commits_per_full_commit cols off nc +
              (k + off) / nc)).sum / 8)).take
          (get_byte_size (cols.get ⟨c, hc⟩))) =
        (cols.get ⟨c, hc⟩).encBytes.getD k [] := by
  have hlen := len_le_sub_commits_mul cols off nc hnc
    (get_num_of_sub_commits_per_full_commit cols off nc) (Nat.le_refl _)
  obtain ⟨buf, hpw, hsome, hblen⟩ := packed_msm_success cols off nc
    (get_num_of_sub_commits_per_full_commit cols off nc) hnc hlen
  refine ⟨_, buf, hsome, ?_⟩
  intro c hc k hk
  have hcl : (cols.get ⟨c, hc⟩).len + off ≤
      get_num_of_sub_commits_per_full_commit cols off nc * nc :=
    hlen _ (List.get_mem cols c hc)
  have hs : (k + off) / nc < get_num_of_sub_commits_per_full_commit cols off nc :=
    (Nat.div_lt_iff_lt_mul (by omega)).mpr (by omega)
  have htake := extended_bit_table_take_sum cols
    (get_num_of_sub_commits_per_full_commit cols off nc) c hc ((k + off) / nc)
    (Nat.le_of_lt hs)
  have haddr : ((k + off) % nc) *
        ((extended_bit_table cols
          (get_num_of_sub_commits_per_full_commit cols off nc)).sum / 8) +
        ((extended_bit_table cols
            (get_num_of_sub_commits_per_full_commit cols off nc)).take
          (c * get_num_of_sub_commits_per_full_commit cols off nc +
            (k + off) / nc)).sum / 8 =
      ((k + off) % nc) * row_byte_width cols
          (get_num_of_sub_commits_per_full_commit cols off nc) +
        get_byte_size (cols.get ⟨c, hc⟩) * ((k + off) / nc) +
        get_num_of_sub_commits_per_full_commit cols off nc * cols_byte_take cols c := by
    rw [extended_bit_table_sum_div, htake]
    have h8 : 8 * (get_num_of_sub_commits_per_full_commit cols off nc *
        cols_byte_take cols c +
        (k + off) / nc * get_byte_size (cols.get ⟨c, hc⟩)) / 8 =
        get_num_of_sub_commits_per_full_commit cols off nc * cols_byte_take cols c +
          (k + off) / nc * get_byte_size (cols.get ⟨c, hc⟩) := by
      omega
    rw [h8]
    ring
  rw [haddr]
  have hsrc := encBytes_getD_length (cols.get ⟨c, hc⟩) k hk
  apply slice_eq_of_getD
  · have hb := inBand_bound
      (data_write_inBand cols (get_num_of_sub_commits_per_full_commit cols off nc)
        off nc c k hc hnc hk hcl)
      (data_band_le cols (get_num_of_sub_commits_per_full_commit cols off nc) c hc)
    simp only at hb
    rw [hsrc] at hb
    rw [hblen]
    exact hb
  · exact hsrc
  · intro t ht
    exact packed_read_data cols off nc
      (get_num_of_sub_commits_per_full_commit cols off nc) hnc hlen hpw c hc k hk t
      (by omega)

/-- Witness for C1 at a concrete two-column batch. -/
theorem C1_packed_msm_addressing_witness :
    ∃ bt buf,
      get_bit_table_and_scalars_for_packed_msm
          [CommittableColumn.BigInt [1, 2], CommittableColumn.BigInt [3, 4]] 0 2
          (get_num_of_sub_commits_per_full_commit
            [CommittableColumn.BigInt [1, 2], CommittableColumn.BigInt [3, 4]] 0 2) =
        some (bt, buf) ∧
      ∀ (c : Nat)
        (hc : c < [CommittableColumn.BigInt [1, 2],
          CommittableColumn.BigInt [3, 4]].length)
        (k : Nat),
        k < ([CommittableColumn.BigInt [1, 2],
            CommittableColumn.BigInt [3, 4]].get ⟨c, hc⟩).len →
        ((buf.drop ((k % 2) * (bt.sum / 8) +
            (bt.take (c * get_num_of_sub_commits_per_full_commit
                [CommittableColumn.BigInt [1, 2], CommittableColumn.BigInt [3, 4]] 0 2 +
              k / 2)).sum / 8)).take
          (get_byte_size ([CommittableColumn.BigInt [1, 2],
            CommittableColumn.BigInt [3, 4]].get ⟨c, hc⟩))) =
        ([CommittableColumn.BigInt [1, 2],
          CommittableColumn.BigInt [3, 4]].get ⟨c, hc⟩).encBytes.getD k [] := by
  have h := C1_packed_msm_addressing
    [CommittableColumn.BigInt [1, 2], CommittableColumn.BigInt [3, 4]] 0 2 (by decide)
  simpa using h

/-- C3 counterexample: a `TimestampTZ` column does receive a sign-correction
byte.  For the batch `[TimestampTZ(unit 0, tz 0, [0])]` with offset 0, one
generator column and one sub-commit, the packed buffer is 9 bytes: 8 data
bytes (the biased encoding of `0`) followed by the offset-plane byte, which is
`1`, not `0` — refuting "the timestamp variant never receives sign-correction
bytes, its offset-plane slots stay zero". -/
theorem C3_counterexample :
    get_bit_table_and_scalars_for_packed_msm [CommittableColumn.TimestampTZ 0 0 [0]]
        0 1 1 = some ([64, 8], [0, 0, 0, 0, 0, 0, 0, 128, 1]) ∧
      ([0, 0, 0, 0, 0, 0, 0, 128, 1] : List Nat).getD 8 0 = 1 := by
  exact ⟨rfl, rfl⟩

/-- Prefix sums reaching into the offset plane of the extended bit table. -/
theorem extended_take_offset_sum (cols : List CommittableColumn) (m q : Nat)
    (hq : q ≤ cols.length * m) :
    ((extended_bit_table cols m).take (cols.length * m + q)).sum =
      8 * (m * cols_byte_sum cols + q) := by
  have hl : (get_repeated_bit_table (get_output_bit_table cols) m).length =
      cols.length * m := by
    rw [repeated_bit_table_length]
    simp [get_output_bit_table]
  show ((get_repeated_bit_table (get_output_bit_table cols) m ++
      List.replicate (get_repeated_bit_table (get_output_bit_table cols) m).length
        8).take (cols.length * m + q)).sum = _
  rw [hl, ← hl, List.take_append, List.sum_append, hl, List.take_replicate,
    Nat.min_eq_left hq]
  rw [repeated_bit_table_sum, output_bit_table_sum, List.sum_replicate, smul_eq_mul]
  ring

/-- C3 (amended): the offset-plane byte `1` is written, with the same
row/shard addressing and positioned after all data planes, for every existing
element of each variant that runs the offset pass — the four signed-integer
variants and `TimestampTZ` — while the wide (`Decimal75`/`Scalar`/`VarChar`)
and `Boolean` variants never receive sign-correction bytes: their offset-plane
slots stay zero. -/
theorem C3_amended_offset_plane (cols : List CommittableColumn) (off nc : Nat)
    (hnc : 1 ≤ nc) :
    (∀ c : List Int, (CommittableColumn.SmallInt c).writesOffsetPlane = true) ∧
    (∀ c : List Int, (CommittableColumn.Int c).writesOffsetPlane = true) ∧
    (∀ c : List Int, (CommittableColumn.BigInt c).writesOffsetPlane = true) ∧
    (∀ c : List Int, (CommittableColumn.Int128 c).writesOffsetPlane = true) ∧
    (∀ (u z : Nat) (c : List Int),
      (CommittableColumn.TimestampTZ u z c).writesOffsetPlane = true) ∧
    (∀ (p : Nat) (s : Int) (c : List U64x4),
      (CommittableColumn.Decimal75 p s c).writesOffsetPlane = false) ∧
    (∀ c : List U64x4, (CommittableColumn.Scalar c).writesOffsetPlane = false) ∧
    (∀ c : List U64x4, (CommittableColumn.VarChar c).writesOffsetPlane = false) ∧
    (∀ c : List Bool, (CommittableColumn.Boolean c).writesOffsetPlane = false) ∧
    ∃ bt buf,
      get_bit_table_and_scalars_for_packed_msm cols off nc
          (get_num_of_sub_commits_per_full_commit cols off nc) = some (bt, buf) ∧
      (∀ (c : Nat) (hc : c < cols.length),
        (cols.get ⟨c, hc⟩).writesOffsetPlane = true →
        ∀ (k : Nat), k < (cols.get ⟨c, hc⟩).len →
        buf.getD (((k + off) % nc) * (bt.sum / 8) +
            (bt.take (cols.length * get_num_of_sub_commits_per_full_commit cols off nc +
              (c * get_num_of_sub_commits_per_full_commit cols off nc +
                (k + off) / nc))).sum / 8) 0 = 1) ∧
      (∀ (c : Nat) (hc : c < cols.length),
        (cols.get ⟨c, hc⟩).writesOffsetPlane = false →
        ∀ (r s : Nat), r < nc →
          s < get_num_of_sub_commits_per_full_commit cols off nc →
        buf.getD (r * (bt.sum / 8) +
            (bt.take (cols.length * get_num_of_sub_commits_per_full_commit cols off nc +
              (c * get_num_of_sub_commits_per_full_commit cols off nc + s))).sum / 8)
          0 = 0) := by
  refine ⟨fun _ => rfl, fun _ => rfl, fun _ => rfl, fun _ => rfl, fun _ _ _ => rfl,
    fun _ _ _ => rfl, fun _ => rfl, fun _ => rfl, fun _ => rfl, ?_⟩
  have hlen := len_le_sub_commits_mul cols off nc hnc
    (get_num_of_sub_commits_per_full_commit cols off nc) (Nat.le_refl _)
  obtain ⟨buf, hpw, hsome, hblen⟩ := packed_msm_success cols off nc
    (get_num_of_sub_commits_per_full_commit cols off nc) hnc hlen
  have hq : ∀ (c s : Nat), c < cols.length →
      s ≤ get_num_of_sub_commits_per_full_commit cols off nc →
      ((extended_bit_table cols
          (get_num_of_sub_commits_per_full_commit cols off nc)).take
        (cols.length * get_num_of_sub_commits_per_full_commit cols off nc +
          (c * get_num_of_sub_commits_per_full_commit cols off nc + s))).sum / 8 =
      get_num_of_sub_commits_per_full_commit cols off nc * cols_byte_sum cols +
        c * get_num_of_sub_commits_per_full_commit cols off nc + s := by
    intro c s hc hs
    have hqle : c * get_num_of_sub_commits_per_full_commit cols off nc + s ≤
        cols.length * get_num_of_sub_commits_per_full_commit cols off nc := by
      have h1 : (c + 1) * get_num_of_sub_commits_per_full_commit cols off nc ≤
          cols.length * get_num_of_sub_commits_per_full_commit cols off nc :=
        Nat.mul_le_mul_right _ hc
      have h2 : (c + 1) * get_num_of_sub_commits_per_full_commit cols off nc =
          c * get_num_of_sub_commits_per_full_commit cols off nc +
            get_num_of_sub_commits_per_full_commit cols off nc := by ring
      omega
    rw [extended_take_offset_sum cols _ _ hqle]
    omega
  refine ⟨_, buf, hsome, ?_, ?_⟩
  · intro c hc hsign k hk
    have hs : (k + off) / nc < get_num_of_sub_commits_per_full_commit cols off nc := by
      have hcl := hlen _ (List.get_mem cols c hc)
      exact (Nat.div_lt_iff_lt_mul (by omega)).mpr (by omega)
    rw [extended_bit_table_sum_div, hq c ((k + off) / nc) hc (Nat.le_of_lt hs)]
    have hread := packed_read_offset cols off nc
      (get_num_of_sub_commits_per_full_commit cols off nc) hnc hlen hpw c hc hsign k hk
    have haddr : ((k + off) % nc) * row_byte_width cols
          (get_num_of_sub_commits_per_full_commit cols off nc) + (k + off) / nc +
          (get_num_of_sub_commits_per_full_commit cols off nc * cols_byte_sum cols +
            c * get_num_of_sub_commits_per_full_commit cols off nc) =
        ((k + off) % nc) * row_byte_width cols
            (get_num_of_sub_commits_per_full_commit cols off nc) +
          (get_num_of_sub_commits_per_full_commit cols off nc * cols_byte_sum cols +
            c * get_num_of_sub_commits_per_full_commit cols off nc) + (k + off) / nc := by
      ring
    rw [haddr, Nat.add_assoc] at hread
    exact hread
  · intro c hc hsign r s hr hs
    rw [extended_bit_table_sum_div, hq c s hc (Nat.le_of_lt hs)]
    exact packed_zero_offset cols off nc
      (get_num_of_sub_commits_per_full_commit cols off nc) hnc hlen hpw c hc hsign
      r s hr hs

/-- Witness for the amended C3 at a concrete batch holding a timestamp column
and a boolean column. -/
theorem C3_amended_offset_plane_witness :
    ∃ bt buf,
      get_bit_table_and_scalars_for_packed_msm
          [CommittableColumn.TimestampTZ 0 0 [0], CommittableColumn.Boolean [true]] 0 1
          (get_num_of_sub_commits_per_full_commit
            [CommittableColumn.TimestampTZ 0 0 [0], CommittableColumn.Boolean [true]]
            0 1) = some (bt, buf) ∧
      (∀ (c : Nat) (hc : c < [CommittableColumn.TimestampTZ 0 0 [0],
          CommittableColumn.Boolean [true]].length),
        ([CommittableColumn.TimestampTZ 0 0 [0],
          CommittableColumn.Boolean [true]].get ⟨c, hc⟩).writesOffsetPlane = true →
        ∀ (k : Nat), k < ([CommittableColumn.TimestampTZ 0 0 [0],
          CommittableColumn.Boolean [true]].get ⟨c, hc⟩).len →
        buf.getD (((k + 0) % 1) * (bt.sum / 8) +
            (bt.take ([CommittableColumn.TimestampTZ 0 0 [0],
                CommittableColumn.Boolean [true]].length *
                get_num_of_sub_commits_per_full_commit
                  [CommittableColumn.TimestampTZ 0 0 [0],
                    CommittableColumn.Boolean [true]] 0 1 +
              (c * get_num_of_sub_commits_per_full_commit
                  [CommittableColumn.TimestampTZ 0 0 [0],
                    CommittableColumn.Boolean [true]] 0 1 +
                (k + 0) / 1))).sum / 8) 0 = 1) ∧
      (∀ (c : Nat) (hc : c < [CommittableColumn.TimestampTZ 0 0 [0],
          CommittableColumn.Boolean [true]].length),
        ([CommittableColumn.TimestampTZ 0 0 [0],
          CommittableColumn.Boolean [true]].get ⟨c, hc⟩).writesOffsetPlane = false →
        ∀ (r s : Nat), r < 1 →
          s < get_num_of_sub_commits_per_full_commit
            [CommittableColumn.TimestampTZ 0 0 [0],
              CommittableColumn.Boolean [true]] 0 1 →
        buf.getD (r * (bt.sum / 8) +
            (bt.take ([CommittableColumn.TimestampTZ 0 0 [0],
                CommittableColumn.Boolean [true]].length *
                get_num_of_sub_commits_per_full_commit
                  [CommittableColumn.TimestampTZ 0 0 [0],
                    CommittableColumn.Boolean [true]] 0 1 +
              (c * get_num_of_sub_commits_per_full_commit
                  [CommittableColumn.TimestampTZ 0 0 [0],
                    CommittableColumn.Boolean [true]] 0 1 + s))).sum / 8) 0 = 0) :=
  (C3_amended_offset_plane
    [CommittableColumn.TimestampTZ 0 0 [0], CommittableColumn.Boolean [true]] 0 1
    (by decide)).2.2.2.2.2.2.2.2.2

/-- Shared facts about a biased little-endian signed encoder. -/
theorem signed_offset_facts (W : Nat) (minv maxv : Int) (enc : Int → List Nat)
    (hencdef : ∀ v, enc v = toLEBytes W (((v - minv) % 2 ^ (8 * W)).toNat))
    (hrange : ∀ v : Int, minv ≤ v → v ≤ maxv → 0 ≤ v - minv ∧ v - minv < 2 ^ (8 * W)) :
    (∀ v : Int, minv ≤ v → v ≤ maxv →
      (enc v).length = W ∧ (fromLEBytes (enc v) : Int) = v - minv) ∧
    (∀ v v' : Int, minv ≤ v → v' ≤ maxv → v < v' →
      fromLEBytes (enc v) < fromLEBytes (enc v')) := by
  have hdec : ∀ v : Int, minv ≤ v → v ≤ maxv →
      (fromLEBytes (enc v) : Int) = v - minv := by
    intro v h1 h2
    obtain ⟨h0, hlt⟩ := hrange v h1 h2
    rw [hencdef v, signed_enc_decode W v minv h0 hlt]
    exact Int.toNat_of_nonneg h0
  constructor
  · intro v h1 h2
    refine ⟨?_, hdec v h1 h2⟩
    rw [hencdef v]
    exact toLEBytes_length W _
  · intro v v' h1 h2 hlt
    have d1 := hdec v h1 (le_of_lt (lt_of_lt_of_le hlt h2))
    have d2 := hdec v' (le_of_lt (lt_of_le_of_lt h1 hlt)) h2
    omega

/-- C4: for each signed integer domain (i16, i32, i64, i128) and every
in-domain value `v`, `offset_to_bytes v` is the little-endian byte sequence of
exactly the domain's byte width encoding `v - MIN` (wrap-around arithmetic):
the minimum maps to `0`, the maximum to `2 ^ w - 1`, and the encoded unsigned
integer is strictly increasing in `v`. -/
theorem C4_signed_encoding_shift :
    ((∀ v : Int, i16Min ≤ v → v ≤ 2 ^ 15 - 1 →
        (i16_offset_to_bytes v).length = 2 ∧
        (fromLEBytes (i16_offset_to_bytes v) : Int) = v - i16Min) ∧
      (∀ v v' : Int, i16Min ≤ v → v' ≤ 2 ^ 15 - 1 → v < v' →
        fromLEBytes (i16_offset_to_bytes v) < fromLEBytes (i16_offset_to_bytes v')) ∧
      fromLEBytes (i16_offset_to_bytes i16Min) = 0 ∧
      fromLEBytes (i16_offset_to_bytes (2 ^ 15 - 1)) = 2 ^ 16 - 1) ∧
    ((∀ v : Int, i32Min ≤ v → v ≤ 2 ^ 31 - 1 →
        (i32_offset_to_bytes v).length = 4 ∧
        (fromLEBytes (i32_offset_to_bytes v) : Int) = v - i32Min) ∧
      (∀ v v' : Int, i32Min ≤ v → v' ≤ 2 ^ 31 - 1 → v < v' →
        fromLEBytes (i32_offset_to_bytes v) < fromLEBytes (i32_offset_to_bytes v')) ∧
      fromLEBytes (i32_offset_to_bytes i32Min) = 0 ∧
      fromLEBytes (i32_offset_to_bytes (2 ^ 31 - 1)) = 2 ^ 32 - 1) ∧
    ((∀ v : Int, i64Min ≤ v → v ≤ 2 ^ 63 - 1 →
        (i64_offset_to_bytes v).length = 8 ∧
        (fromLEBytes (i64_offset_to_bytes v) : Int) = v - i64Min) ∧
      (∀ v v' : Int, i64Min ≤ v → v' ≤ 2 ^ 63 - 1 → v < v' →
        fromLEBytes (i64_offset_to_bytes v) < fromLEBytes (i64_offset_to_bytes v')) ∧
      fromLEBytes (i64_offset_to_bytes i64Min) = 0 ∧
      fromLEBytes (i64_offset_to_bytes (2 ^ 63 - 1)) = 2 ^ 64 - 1) ∧
    ((∀ v : Int, i128Min ≤ v → v ≤ 2 ^ 127 - 1 →
        (i128_offset_to_bytes v).length = 16 ∧
        (fromLEBytes (i128_offset_to_bytes v) : Int) = v - i128Min) ∧
      (∀ v v' : Int, i128Min ≤ v → v' ≤ 2 ^ 127 - 1 → v < v' →
        fromLEBytes (i128_offset_to_bytes v) < fromLEBytes (i128_offset_to_bytes v')) ∧
      fromLEBytes (i128_offset_to_bytes i128Min) = 0 ∧
      fromLEBytes (i128_offset_to_bytes (2 ^ 127 - 1)) = 2 ^ 128 - 1) := by
  have h16 := signed_offset_facts 2 i16Min (2 ^ 15 - 1) i16_offset_to_bytes
    (fun v => rfl)
    (by
      intro v h1 h2
      have e1 : (2 : Int) ^ (8 * 2) = 2 ^ 15 * 2 := by norm_num
      unfold i16Min at *
      omega)
  have h32 := signed_offset_facts 4 i32Min (2 ^ 31 - 1) i32_offset_to_bytes
    (fun v => rfl)
    (by
      intro v h1 h2
      have e1 : (2 : Int) ^ (8 * 4) = 2 ^ 31 * 2 := by norm_num
      unfold i32Min at *
      omega)
  have h64 := signed_offset_facts 8 i64Min (2 ^ 63 - 1) i64_offset_to_bytes
    (fun v => rfl)
    (by
      intro v h1 h2
      have e1 : (2 : Int) ^ (8 * 8) = 2 ^ 63 * 2 := by norm_num
      unfold i64Min at *
      omega)
  have h128 := signed_offset_facts 16 i128Min (2 ^ 127 - 1) i128_offset_to_bytes
    (fun v => rfl)
    (by
      intro v h1 h2
      have e1 : (2 : Int) ^ (8 * 16) = 2 ^ 127 * 2 := by norm_num
      unfold i128Min at *
      omega)
  exact ⟨⟨h16.1, h16.2, rfl, rfl⟩, ⟨h32.1, h32.2, rfl, rfl⟩,
    ⟨h64.1, h64.2, rfl, rfl⟩, ⟨h128.1, h128.2, rfl, rfl⟩⟩

/-- Witness for C4: the i16 encoder at `v = 5` and the i64 strict ordering at
`-3 < 7`. -/
theorem C4_signed_encoding_shift_witness :
    ((i16_offset_to_bytes 5).length = 2 ∧
      (fromLEBytes (i16_offset_to_bytes 5) : Int) = 5 - i16Min) ∧
    fromLEBytes (i64_offset_to_bytes (-3)) < fromLEBytes (i64_offset_to_bytes 7) :=
  ⟨C4_signed_encoding_shift.1.1 5 (by decide) (by decide),
    C4_signed_encoding_shift.2.2.1.2.1 (-3) 7 (by decide) (by decide) (by decide)⟩

/-!
## Builder theorems
-/

/-- `create_multiplicand_with_deduplicated_mles` touches only the `mles`
cache: all other builder fields pass through unchanged. -/
theorem create_multiplicand_fields :
    ∀ (terms : List MultilinearExtension) (b : CompositePolynomialBuilder),
      (create_multiplicand_with_deduplicated_mles b terms).2.num_sumcheck_variables =
          b.num_sumcheck_variables ∧
        (create_multiplicand_with_deduplicated_mles b terms).2.fr_multiplicands_degree1 =
          b.fr_multiplicands_degree1 ∧
        (create_multiplicand_with_deduplicated_mles b terms).2.fr_multiplicands_rest =
          b.fr_multiplicands_rest ∧
        (create_multiplicand_with_deduplicated_mles b terms).2.zerosum_multiplicands =
          b.zerosum_multiplicands ∧
        (create_multiplicand_with_deduplicated_mles b terms).2.fr = b.fr := by
  intro terms
  induction terms with
  | nil => intro b; exact ⟨rfl, rfl, rfl, rfl, rfl⟩
  | cons t rest ih =>
    intro b
    simp only [create_multiplicand_with_deduplicated_mles]
    cases h : b.mles.lookup t.id with
    | some v =>
      simpa using ih b
    | none =>
      simpa using ih { b with mles := b.mles ++
        [(t.id, toSumcheckTerm b.num_sumcheck_variables t.values)] }

/-- C8: for every builder state and multiplier, `produce_zerosum_multiplicand`
with an empty terms list fails fast via its assertion and records nothing;
with a non-empty terms list it appends the `(multiplier, materialized terms)`
product to the zero-sum list without failing. -/
theorem C8_zerosum_asserts_nonempty (b : CompositePolynomialBuilder)
    (mult : ArkScalar) (terms : List MultilinearExtension) :
    (terms = [] → produce_zerosum_multiplicand b mult terms = none) ∧
    (terms ≠ [] →
      produce_zerosum_multiplicand b mult terms =
        some { (create_multiplicand_with_deduplicated_mles b terms).2 with
          zerosum_multiplicands :=
            b.zerosum_multiplicands ++
              [(mult, (create_multiplicand_with_deduplicated_mles b terms).1)] }) := by
  constructor
  · intro h
    subst h
    rfl
  · intro h
    have hfields := (create_multiplicand_fields terms b).2.2.2.1
    cases terms with
    | nil => exact absurd rfl h
    | cons t rest =>
      simp only [produce_zerosum_multiplicand, List.isEmpty_cons, Bool.false_eq_true,
        if_false]
      rw [hfields]

/-- Witness for C8: the empty-terms assertion and one successful append at
concrete inputs. -/
theorem C8_zerosum_asserts_nonempty_witness :
    produce_zerosum_multiplicand
        { num_sumcheck_variables := 1, fr_multiplicands_degree1 := [0],
          fr_multiplicands_rest := [], zerosum_multiplicands := [],
          fr := [1, 0], mles := [] } 5 [] = none ∧
      produce_zerosum_multiplicand
        { num_sumcheck_variables := 1, fr_multiplicands_degree1 := [0],
          fr_multiplicands_rest := [], zerosum_multiplicands := [],
          fr := [1, 0], mles := [] } 5 [⟨3, [2]⟩] =
        some { (create_multiplicand_with_deduplicated_mles
            { num_sumcheck_variables := 1, fr_multiplicands_degree1 := [0],
              fr_multiplicands_rest := [], zerosum_multiplicands := [],
              fr := [1, 0], mles := [] } [⟨3, [2]⟩]).2 with
          zerosum_multiplicands :=
            [] ++ [(5, (create_multiplicand_with_deduplicated_mles
              { num_sumcheck_variables := 1, fr_multiplicands_degree1 := [0],
                fr_multiplicands_rest := [], zerosum_multiplicands := [],
                fr := [1, 0], mles := [] } [⟨3, [2]⟩]).1)] } :=
  ⟨(C8_zerosum_asserts_nonempty _ 5 []).1 rfl,
    (C8_zerosum_asserts_nonempty _ 5 [⟨3, [2]⟩]).2 (by simp)⟩

/-- C10: `make_composite_polynomial` takes the builder by shared reference
and mutates nothing: every field of the returned builder state (degree-1
accumulator, both product lists, `fr`, the dedup cache) equals the input
state, and two successive calls on the same builder return equal composite
polynomials — the builder is not consumed. -/
theorem C10_make_composite_polynomial_pure (b : CompositePolynomialBuilder) :
    (make_composite_polynomial b).1.num_sumcheck_variables =
        b.num_sumcheck_variables ∧
      (make_composite_polynomial b).1.fr_multiplicands_degree1 =
        b.fr_multiplicands_degree1 ∧
      (make_composite_polynomial b).1.fr_multiplicands_rest =
        b.fr_multiplicands_rest ∧
      (make_composite_polynomial b).1.zerosum_multiplicands =
        b.zerosum_multiplicands ∧
      (make_composite_polynomial b).1.fr = b.fr ∧
      (make_composite_polynomial b).1.mles = b.mles ∧
      (make_composite_polynomial b).1 = b ∧
      (make_composite_polynomial ((make_composite_polynomial b).1)).2 =
        (make_composite_polynomial b).2 := by
  have heta : (make_composite_polynomial b).1 = b := by
    cases b
    rfl
  refine ⟨rfl, rfl, rfl, rfl, rfl, rfl, heta, ?_⟩
  rw [heta]

theorem lookup_append_some {β : Type} {l : List (Nat × β)} (l2 : List (Nat × β))
    {x : Nat} {v : β} (h : l.lookup x = some v) : (l ++ l2).lookup x = some v := by
  induction l with
  | nil => simp [List.lookup] at h
  | cons a rest ih =>
    simp only [List.cons_append, List.lookup] at h ⊢
    cases hx : (x == a.1) with
    | true => rw [hx] at h; exact h
    | false => rw [hx] at h; exact ih h

theorem lookup_append_new {β : Type} {l : List (Nat × β)} {x : Nat} (v : β)
    (h : l.lookup x = none) : (l ++ [(x, v)]).lookup x = some v := by
  induction l with
  | nil => simp [List.lookup]
  | cons a rest ih =>
    simp only [List.cons_append, List.lookup] at h ⊢
    cases hx : (x == a.1) with
    | true => rw [hx] at h; exact absurd h (by simp)
    | false => rw [hx] at h; exact ih h

theorem lookup_append_cases {β : Type} {l l2 : List (Nat × β)} {x : Nat} {v : β}
    (h : (l ++ l2).lookup x = some v) : l.lookup x = some v ∨ l2.lookup x = some v := by
  induction l with
  | nil => right; simpa using h
  | cons a rest ih =>
    simp only [List.cons_append, List.lookup] at h ⊢
    cases hx : (x == a.1) with
    | true => rw [hx] at h; left; exact h
    | false => rw [hx] at h; exact ih h

theorem lookup_eq_none_iff {β : Type} {l : List (Nat × β)} {x : Nat} :
    l.lookup x = none ↔ x ∉ l.map Prod.fst := by
  induction l with
  | nil => simp [List.lookup]
  | cons a rest ih =>
    simp only [List.lookup, List.map_cons, List.mem_cons]
    cases hx : (x == a.1) with
    | true =>
      have : x = a.1 := by simpa using hx
      simp [this]
    | false =>
      have : ¬x = a.1 := by simpa using hx
      simp [this, ih]

/-- The dedup cache only grows, by appending. -/
theorem create_mles_extend :
    ∀ (terms : List MultilinearExtension) (b : CompositePolynomialBuilder),
      ∃ l', (create_multiplicand_with_deduplicated_mles b terms).2.mles =
        b.mles ++ l' := by
  intro terms
  induction terms with
  | nil => intro b; exact ⟨[], by simp [create_multiplicand_with_deduplicated_mles]⟩
  | cons t rest ih =>
    intro b
    simp only [create_multiplicand_with_deduplicated_mles]
    cases h : b.mles.lookup t.id with
    | some v => simpa using ih b
    | none =>
      obtain ⟨l', hl'⟩ := ih { b with mles := b.mles ++
        [(t.id, toSumcheckTerm b.num_sumcheck_variables t.values)] }
      refine ⟨(t.id, toSumcheckTerm b.num_sumcheck_variables t.values) :: l', ?_⟩
      simpa [List.append_assoc] using hl'

/-- The materialized product of a call is exactly the cache's entry for each
term's identity, in order: entries are shared through the cache, keyed on
identity, never on value. -/
theorem create_terms_are_cache_entries :
    ∀ (terms : List MultilinearExtension) (b : CompositePolynomialBuilder),
      (create_multiplicand_with_deduplicated_mles b terms).1 =
        terms.map (fun t =>
          (((create_multiplicand_with_deduplicated_mles b terms).2.mles).lookup
            t.id).getD []) := by
  intro terms
  induction terms with
  | nil => intro b; rfl
  | cons t rest ih =>
    intro b
    simp only [create_multiplicand_with_deduplicated_mles, List.map_cons]
    cases h : b.mles.lookup t.id with
    | some v =>
      obtain ⟨l', hl'⟩ := create_mles_extend rest b
      have hpersist : ((create_multiplicand_with_deduplicated_mles b rest).2.mles).lookup
          t.id = some v := by
        rw [hl']
        exact lookup_append_some l' h
      simp only [hpersist, Option.getD_some]
      exact List.cons_eq_cons.mpr ⟨rfl, ih b⟩
    | none =>
      obtain ⟨l', hl'⟩ := create_mles_extend rest { b with mles := b.mles ++
        [(t.id, toSumcheckTerm b.num_sumcheck_variables t.values)] }
      have hins : ((b.mles ++
          [(t.id, toSumcheckTerm b.num_sumcheck_variables t.values)]).lookup t.id) =
          some (toSumcheckTerm b.num_sumcheck_variables t.values) :=
        lookup_append_new _ h
      have hpersist : ((create_multiplicand_with_deduplicated_mles { b with
          mles := b.mles ++
            [(t.id, toSumcheckTerm b.num_sumcheck_variables t.values)] }
          rest).2.mles).lookup t.id =
          some (toSumcheckTerm b.num_sumcheck_variables t.values) := by
        rw [hl']
        exact lookup_append_some l' hins
      simp only [hpersist, Option.getD_some]
      exact List.cons_eq_cons.mpr ⟨rfl, ih _⟩

/-- Every term's identity is in the cache after the call. -/
theorem create_ids_cached :
    ∀ (terms : List MultilinearExtension) (b : CompositePolynomialBuilder),
      ∀ t ∈ terms, ∃ v,
        ((create_multiplicand_with_deduplicated_mles b terms).2.mles).lookup t.id =
          some v := by
  intro terms
  induction terms with
  | nil => intro b t ht; simp at ht
  | cons t0 rest ih =>
    intro b t ht
    simp only [create_multiplicand_with_deduplicated_mles]
    rcases List.mem_cons.mp ht with rfl | hmem
    · cases h : b.mles.lookup t.id with
      | some v =>
        obtain ⟨l', hl'⟩ := create_mles_extend rest b
        refine ⟨v, ?_⟩
        simp only []
        rw [hl']
        exact lookup_append_some l' h
      | none =>
        obtain ⟨l', hl'⟩ := create_mles_extend rest { b with mles := b.mles ++
          [(t.id, toSumcheckTerm b.num_sumcheck_variables t.values)] }
        refine ⟨toSumcheckTerm b.num_sumcheck_variables t.values, ?_⟩
        simp only []
        rw [hl']
        exact lookup_append_some l' (lookup_append_new _ h)
    · cases h : b.mles.lookup t0.id with
      | some v => exact ih b t hmem
      | none => exact ih _ t hmem

theorem lookup_singleton_eq {β : Type} {y : Nat} {w v : β} {x : Nat}
    (h : ([(y, w)] : List (Nat × β)).lookup x = some v) : v = w := by
  simp only [List.lookup] at h
  cases hx : (x == y) with
  | true => rw [hx] at h; simpa using h.symm
  | false => rw [hx] at h; simp at h

theorem toSumcheckTerm_length (n : Nat) (v : List ArkScalar)
    (h : v.length ≤ 2 ^ n) : (toSumcheckTerm n v).length = 2 ^ n := by
  simp only [toSumcheckTerm, List.length_append, List.length_replicate]
  omega

/-- Dedup-cache keys stay pairwise distinct: a materialization is inserted
only on a cache miss. -/
theorem create_keys_nodup :
    ∀ (terms : List MultilinearExtension) (b : CompositePolynomialBuilder),
      (b.mles.map Prod.fst).Nodup →
      (((create_multiplicand_with_deduplicated_mles b terms).2.mles).map
        Prod.fst).Nodup := by
  intro terms
  induction terms with
  | nil => intro b h; exact h
  | cons t rest ih =>
    intro b hnd
    simp only [create_multiplicand_with_deduplicated_mles]
    cases h : b.mles.lookup t.id with
    | some v => exact ih b hnd
    | none =>
      apply ih
      have hnotmem : t.id ∉ b.mles.map Prod.fst := lookup_eq_none_iff.mp h
      simp only [List.map_append, List.map_cons, List.map_nil]
      rw [List.nodup_append]
      refine ⟨hnd, by simp, ?_⟩
      intro a ha
      simp only [List.mem_cons, List.not_mem_nil, or_false]
      intro heq
      exact hnotmem (heq ▸ ha)

/-- Every cache value stays padded to the hypercube length. -/
theorem create_values_padded :
    ∀ (terms : List MultilinearExtension) (b : CompositePolynomialBuilder),
      (∀ x v, b.mles.lookup x = some v → v.length = 2 ^ b.num_sumcheck_variables) →
      (∀ t ∈ terms, t.values.length ≤ 2 ^ b.num_sumcheck_variables) →
      ∀ x v, ((create_multiplicand_with_deduplicated_mles b terms).2.mles).lookup x =
          some v → v.length = 2 ^ b.num_sumcheck_variables := by
  intro terms
  induction terms with
  | nil => intro b hb _ x v h; exact hb x v h
  | cons t rest ih =>
    intro b hb hterms x v
    simp only [create_multiplicand_with_deduplicated_mles]
    cases h : b.mles.lookup t.id with
    | some w =>
      exact ih b hb (fun t' ht' => hterms t' (by simp [ht'])) x v
    | none =>
      intro hlook
      have hb1 : ∀ x v, (b.mles ++
          [(t.id, toSumcheckTerm b.num_sumcheck_variables t.values)]).lookup x =
          some v → v.length = 2 ^ b.num_sumcheck_variables := by
        intro x v hxv
        rcases lookup_append_cases hxv with hc | hc
        · exact hb x v hc
        · rw [lookup_singleton_eq hc]
          exact toSumcheckTerm_length _ _ (hterms t (by simp))
      exact ih { b with mles := b.mles ++
          [(t.id, toSumcheckTerm b.num_sumcheck_variables t.values)] } hb1
        (fun t' ht' => hterms t' (by simp [ht'])) x v hlook

/-- The multi-term body shared by both produce operations preserves the
invariant and records a product whose factors are cache entries. -/
theorem create_inv (b : CompositePolynomialBuilder)
    (terms : List MultilinearExtension)
    (hterms : ∀ t ∈ terms, t.values.length ≤ 2 ^ b.num_sumcheck_variables)
    (hinv : BuilderInv b) :
    BuilderInv (create_multiplicand_with_deduplicated_mles b terms).2 ∧
      (∀ e ∈ (create_multiplicand_with_deduplicated_mles b terms).1,
        ∃ x, ((create_multiplicand_with_deduplicated_mles b terms).2.mles).lookup x =
          some e) := by
  obtain ⟨hnd, hshare, hpad⟩ := hinv
  obtain ⟨l', hl'⟩ := create_mles_extend terms b
  have hfields := create_multiplicand_fields terms b
  constructor
  · refine ⟨create_keys_nodup terms b hnd, ?_, ?_⟩
    · intro pr hpr e he
      rw [hfields.2.2.1, hfields.2.2.2.1] at hpr
      obtain ⟨x, hx⟩ := hshare pr hpr e he
      refine ⟨x, ?_⟩
      rw [hl']
      exact lookup_append_some l' hx
    · rw [hfields.1]
      exact create_values_padded terms b hpad hterms
  · intro e he
    rw [create_terms_are_cache_entries terms b] at he
    obtain ⟨t, ht, hte⟩ := List.mem_map.mp he
    obtain ⟨v, hv⟩ := create_ids_cached terms b t ht
    refine ⟨t.id, ?_⟩
    rw [hv]
    rw [← hte, hv]
    simp

theorem produce_fr_inv (b : CompositePolynomialBuilder) (mult : ArkScalar)
    (terms : List MultilinearExtension)
    (hterms : ∀ t ∈ terms, t.values.length ≤ 2 ^ b.num_sumcheck_variables)
    (hinv : BuilderInv b) :
    BuilderInv (produce_fr_multiplicand b mult terms) ∧
      (produce_fr_multiplicand b mult terms).num_sumcheck_variables =
        b.num_sumcheck_variables ∧
      (∀ x v, b.mles.lookup x = some v →
        (produce_fr_multiplicand b mult terms).mles.lookup x = some v) := by
  match terms with
  | [] => exact ⟨hinv, rfl, fun x v h => h⟩
  | [term] => exact ⟨hinv, rfl, fun x v h => h⟩
  | term :: term2 :: rest =>
    obtain ⟨hinv2, hnew⟩ := create_inv b (term :: term2 :: rest) hterms hinv
    obtain ⟨hnd2, hshare2, hpad2⟩ := hinv2
    obtain ⟨l', hl'⟩ := create_mles_extend (term :: term2 :: rest) b
    have hfields := create_multiplicand_fields (term :: term2 :: rest) b
    refine ⟨⟨hnd2, ?_, hpad2⟩, hfields.1, ?_⟩
    · intro pr hpr e he
      simp only [produce_fr_multiplicand, List.mem_append, List.mem_cons,
        List.not_mem_nil, or_false] at hpr
      rcases hpr with (hpr | hpr) | hpr
      · exact hshare2 pr (by simp [hpr]) e he
      · subst hpr
        exact hnew e he
      · exact hshare2 pr (by simp [hpr]) e he
    · intro x v h
      show ((create_multiplicand_with_deduplicated_mles b
        (term :: term2 :: rest)).2.mles).lookup x = some v
      rw [hl']
      exact lookup_append_some l' h

theorem produce_zerosum_inv (b b2 : CompositePolynomialBuilder) (mult : ArkScalar)
    (terms : List MultilinearExtension)
    (hsome : produce_zerosum_multiplicand b mult terms = some b2)
    (hterms : ∀ t ∈ terms, t.values.length ≤ 2 ^ b.num_sumcheck_variables)
    (hinv : BuilderInv b) :
    BuilderInv b2 ∧ b2.num_sumcheck_variables = b.num_sumcheck_variables ∧
      (∀ x v, b.mles.lookup x = some v → b2.mles.lookup x = some v) := by
  cases terms with
  | nil => simp [produce_zerosum_multiplicand] at hsome
  | cons t rest =>
    simp only [produce_zerosum_multiplicand, List.isEmpty_cons, Bool.false_eq_true,
      if_false, Option.some.injEq] at hsome
    subst hsome
    obtain ⟨hinv2, hnew⟩ := create_inv b (t :: rest) hterms hinv
    obtain ⟨hnd2, hshare2, hpad2⟩ := hinv2
    obtain ⟨l', hl'⟩ := create_mles_extend (t :: rest) b
    have hfields := create_multiplicand_fields (t :: rest) b
    refine ⟨⟨hnd2, ?_, hpad2⟩, hfields.1, ?_⟩
    · intro pr hpr e he
      simp only [List.mem_append, List.mem_cons, List.not_mem_nil, or_false] at hpr
      rcases hpr with hpr | (hpr | hpr)
      · exact hshare2 pr (by simp [hpr]) e he
      · exact hshare2 pr (by simp [hpr]) e he
      · subst hpr
        exact hnew e he
    · intro x v h
      show ((create_multiplicand_with_deduplicated_mles b (t :: rest)).2.mles).lookup
        x = some v
      rw [hl']
      exact lookup_append_some l' h

/-- The invariant and cache persistence through any successful call
sequence. -/
theorem runCalls_inv :
    ∀ (cs : List BuilderCall) (b b1 : CompositePolynomialBuilder),
      runCalls b cs = some b1 →
      (∀ call ∈ cs, ∀ t ∈ call.callTerms,
        t.values.length ≤ 2 ^ b.num_sumcheck_variables) →
      BuilderInv b →
      BuilderInv b1 ∧ b1.num_sumcheck_variables = b.num_sumcheck_variables ∧
        (∀ x v, b.mles.lookup x = some v → b1.mles.lookup x = some v) := by
  intro cs
  induction cs with
  | nil =>
    intro b b1 h _ hinv
    cases h
    exact ⟨hinv, rfl, fun x v hv => hv⟩
  | cons call rest ih =>
    intro b b1 h hterms hinv
    cases call with
    | frTerm mult terms =>
      simp only [runCalls] at h
      have hstep := produce_fr_inv b mult terms
        (fun t ht => hterms (BuilderCall.frTerm mult terms) (by simp) t ht) hinv
      have hrest := ih _ b1 h
        (fun c hc t ht => by
          rw [hstep.2.1]
          exact hterms c (by simp [hc]) t ht)
        hstep.1
      exact ⟨hrest.1, hrest.2.1.trans hstep.2.1,
        fun x v hv => hrest.2.2 x v (hstep.2.2 x v hv)⟩
    | zerosumTerm mult terms =>
      simp only [runCalls] at h
      cases hz : produce_zerosum_multiplicand b mult terms with
      | none => rw [hz] at h; exact absurd h (by simp)
      | some b2 =>
        rw [hz] at h
        have hstep := produce_zerosum_inv b b2 mult terms hz
          (fun t ht => hterms (BuilderCall.zerosumTerm mult terms) (by simp) t ht) hinv
        have hrest := ih b2 b1 h
          (fun c hc t ht => by
            rw [hstep.2.1]
            exact hterms c (by simp [hc]) t ht)
          hstep.1
        exact ⟨hrest.1, hrest.2.1.trans hstep.2.1,
          fun x v hv => hrest.2.2 x v (hstep.2.2 x v hv)⟩

theorem produce_fr_lookup_mono (b : CompositePolynomialBuilder) (mult : ArkScalar)
    (terms : List MultilinearExtension) (x : Nat) (v : List ArkScalar)
    (h : b.mles.lookup x = some v) :
    (produce_fr_multiplicand b mult terms).mles.lookup x = some v := by
  match terms with
  | [] => exact h
  | [term] => exact h
  | term :: term2 :: rest =>
    obtain ⟨l', hl'⟩ := create_mles_extend (term :: term2 :: rest) b
    show ((create_multiplicand_with_deduplicated_mles b
      (term :: term2 :: rest)).2.mles).lookup x = some v
    rw [hl']
    exact lookup_append_some l' h

theorem produce_zerosum_lookup_mono (b b2 : CompositePolynomialBuilder)
    (mult : ArkScalar) (terms : List MultilinearExtension)
    (hsome : produce_zerosum_multiplicand b mult terms = some b2) (x : Nat)
    (v : List ArkScalar) (h : b.mles.lookup x = some v) :
    b2.mles.lookup x = some v := by
  cases terms with
  | nil => simp [produce_zerosum_multiplicand] at hsome
  | cons t rest =>
    simp only [produce_zerosum_multiplicand, List.isEmpty_cons, Bool.false_eq_true,
      if_false, Option.some.injEq] at hsome
    subst hsome
    obtain ⟨l', hl'⟩ := create_mles_extend (t :: rest) b
    show ((create_multiplicand_with_deduplicated_mles b (t :: rest)).2.mles).lookup
      x = some v
    rw [hl']
    exact lookup_append_some l' h

/-- A cached materialization persists unchanged through any later sequence of
calls: it is computed at most once and shared from then on. -/
theorem runCalls_lookup_mono :
    ∀ (cs : List BuilderCall) (b b1 : CompositePolynomialBuilder),
      runCalls b cs = some b1 →
      ∀ x v, b.mles.lookup x = some v → b1.mles.lookup x = some v := by
  intro cs
  induction cs with
  | nil => intro b b1 h x v hv; cases h; exact hv
  | cons call rest ih =>
    intro b b1 h x v hv
    cases call with
    | frTerm mult terms =>
      simp only [runCalls] at h
      exact ih _ b1 h x v (produce_fr_lookup_mono b mult terms x v hv)
    | zerosumTerm mult terms =>
      simp only [runCalls] at h
      cases hz : produce_zerosum_multiplicand b mult terms with
      | none => rw [hz] at h; exact absurd h (by simp)
      | some b2 =>
        rw [hz] at h
        exact ih b2 b1 h x v (produce_zerosum_lookup_mono b b2 mult terms hz x v hv)

theorem new_builder_fields (n : Nat) (fr : List ArkScalar)
    (b0 : CompositePolynomialBuilder)
    (h : CompositePolynomialBuilder.new n fr = some b0) :
    b0.num_sumcheck_variables = n ∧ b0.fr_multiplicands_rest = [] ∧
      b0.zerosum_multiplicands = [] ∧ b0.mles = [] := by
  unfold CompositePolynomialBuilder.new at h
  split at h
  · cases h
    exact ⟨rfl, rfl, rfl, rfl⟩
  · exact absurd h (by simp)

/-- C9: deduplication keys on evaluation-vector identity, never on value.
The materialized factors of every product are exactly the cache entries for
the terms' identities, in order and without merging; a cached materialization
persists unchanged through every later call (materialized once, shared by
every product using that identity); from a fresh builder, the cache holds
each identity exactly once — two distinct identities with equal values get
separate entries — every recorded product factor is a cache entry, and every
cache entry is padded to length `2 ^ num_sumcheck_variables`. -/
theorem C9_dedup_keys_on_identity :
    (∀ (b : CompositePolynomialBuilder) (terms : List MultilinearExtension),
      (create_multiplicand_with_deduplicated_mles b terms).1 =
          terms.map (fun t =>
            (((create_multiplicand_with_deduplicated_mles b terms).2.mles).lookup
              t.id).getD []) ∧
        (create_multiplicand_with_deduplicated_mles b terms).1.length =
          terms.length) ∧
    (∀ (cs : List BuilderCall) (b b1 : CompositePolynomialBuilder),
      runCalls b cs = some b1 →
      ∀ x v, b.mles.lookup x = some v → b1.mles.lookup x = some v) ∧
    (∀ (n : Nat) (fr : List ArkScalar) (b0 : CompositePolynomialBuilder)
      (cs : List BuilderCall) (b1 : CompositePolynomialBuilder),
      CompositePolynomialBuilder.new n fr = some b0 →
      runCalls b0 cs = some b1 →
      (∀ call ∈ cs, ∀ t ∈ call.callTerms, t.values.length ≤ 2 ^ n) →
      (b1.mles.map Prod.fst).Nodup ∧
        (∀ pr ∈ b1.fr_multiplicands_rest ++ b1.zerosum_multiplicands, ∀ e ∈ pr.2,
          ∃ x, b1.mles.lookup x = some e) ∧
        (∀ x v, b1.mles.lookup x = some v → v.length = 2 ^ n)) := by
  refine ⟨?_, runCalls_lookup_mono, ?_⟩
  · intro b terms
    refine ⟨create_terms_are_cache_entries terms b, ?_⟩
    rw [create_terms_are_cache_entries terms b, List.length_map]
  · intro n fr b0 cs b1 hnew hrun hterms
    obtain ⟨hn0, hfr0, hzs0, hmles0⟩ := new_builder_fields n fr b0 hnew
    have hinv0 : BuilderInv b0 := by
      refine ⟨?_, ?_, ?_⟩
      · rw [hmles0]; exact List.nodup_nil
      · intro pr hpr
        rw [hfr0, hzs0] at hpr
        simp at hpr
      · intro x v hv
        rw [hmles0] at hv
        simp [List.lookup] at hv
    have hterms0 : ∀ call ∈ cs, ∀ t ∈ call.callTerms,
        t.values.length ≤ 2 ^ b0.num_sumcheck_variables := by
      rw [hn0]
      exact hterms
    obtain ⟨⟨hnd1, hshare1, hpad1⟩, hnv1, _⟩ := runCalls_inv cs b0 b1 hrun hterms0 hinv0
    refine ⟨hnd1, hshare1, ?_⟩
    intro x v hv
    have := hpad1 x v hv
    rw [hnv1, hn0] at this
    exact this

/-- Witness for C9: a fresh builder over one sumcheck variable, one zero-sum
call with two distinct identities holding equal values. -/
theorem C9_dedup_keys_on_identity_witness :
    ((⟨1, [0], [], [(7, [[2, 0], [2, 0]])], [1, 0],
        [(3, [2, 0]), (4, [2, 0])]⟩ :
      CompositePolynomialBuilder).mles.map Prod.fst).Nodup ∧
      (∀ pr ∈ (⟨1, [0], [], [(7, [[2, 0], [2, 0]])], [1, 0],
          [(3, [2, 0]), (4, [2, 0])]⟩ :
            CompositePolynomialBuilder).fr_multiplicands_rest ++
          (⟨1, [0], [], [(7, [[2, 0], [2, 0]])], [1, 0],
            [(3, [2, 0]), (4, [2, 0])]⟩ :
              CompositePolynomialBuilder).zerosum_multiplicands, ∀ e ∈ pr.2,
        ∃ x, ((⟨1, [0], [], [(7, [[2, 0], [2, 0]])], [1, 0],
          [(3, [2, 0]), (4, [2, 0])]⟩ :
            CompositePolynomialBuilder).mles).lookup x = some e) ∧
      (∀ x v, ((⟨1, [0], [], [(7, [[2, 0], [2, 0]])], [1, 0],
          [(3, [2, 0]), (4, [2, 0])]⟩ :
            CompositePolynomialBuilder).mles).lookup x = some v →
        v.length = 2 ^ 1) :=
  C9_dedup_keys_on_identity.2.2 1 [1]
    ⟨1, [0], [], [], [1, 0], []⟩
    [BuilderCall.zerosumTerm 7 [⟨3, [2]⟩, ⟨4, [2]⟩]]
    ⟨1, [0], [], [(7, [[2, 0], [2, 0]])], [1, 0], [(3, [2, 0]), (4, [2, 0])]⟩
    (by rfl) (by rfl) (by decide)
